import Mathlib

/-!
# Verification of the bookkeeper core against its specification

This file gives a shallow embedding of the bookkeeper application's core
logic (category tree, budget period engine, repositories, presenter
reconciliation) and proves, or refutes, the behavioural claims made by the
specification.

The budget period engine (`bookkeeper/models/budget.py`) relies on Python's
`datetime` library for calendar arithmetic, so the embedding starts with a
model of the proleptic Gregorian calendar following CPython's reference
implementation (`Lib/datetime.py`): `_is_leap`, `_days_in_month`,
`_days_before_month`, `_days_before_year`, `_ymd2ord`, `_ord2ymd`,
`_isoweek1monday`, `date.isocalendar` and `_isoweek_to_gregorian`.
Year-range (MINYEAR/MAXYEAR) bounds checks are not modelled: dates are
proleptic Gregorian with arbitrary year `≥ 1`; `_ord2ymd` is modelled by
linear scans over years and months (fuel-based) instead of CPython's
400/100/4-year block arithmetic, which computes the same bijection between
ordinals and calendar dates (January 1 of year 1 is ordinal 1).
-/

namespace Bookkeeper

/-- CPython `_is_leap(year)`. -/
def isLeap (y : Int) : Bool :=
  y % 4 == 0 && (y % 100 != 0 || y % 400 == 0)

theorem isLeap_iff (y : Int) :
    isLeap y = true ↔ (y % 4 = 0 ∧ (y % 100 ≠ 0 ∨ y % 400 = 0)) := by
  simp [isLeap]

/-- Number of days of year `y` (365, or 366 in a leap year). -/
def daysInYear (y : Int) : Int := if isLeap y then 366 else 365

/-- CPython `_days_in_month(year, month)` (the `_DAYS_IN_MONTH` table). -/
def daysInMonth (y m : Int) : Int :=
  if m = 2 then (if isLeap y then 29 else 28)
  else if m = 4 ∨ m = 6 ∨ m = 9 ∨ m = 11 then 30
  else 31

/-- CPython `_days_before_month(year, month)` (the `_DAYS_BEFORE_MONTH`
table plus the leap-day correction for months after February). -/
def daysBeforeMonth (y m : Int) : Int :=
  (if m = 1 then 0 else if m = 2 then 31 else if m = 3 then 59
   else if m = 4 then 90 else if m = 5 then 120 else if m = 6 then 151
   else if m = 7 then 181 else if m = 8 then 212 else if m = 9 then 243
   else if m = 10 then 273 else if m = 11 then 304 else 334)
  + (if 2 < m ∧ isLeap y then 1 else 0)

/-- CPython `_days_before_year(year)`. -/
def daysBeforeYear (y : Int) : Int :=
  365 * (y - 1) + (y - 1) / 4 - (y - 1) / 100 + (y - 1) / 400

/-- CPython `_ymd2ord(year, month, day)`: proleptic Gregorian ordinal,
with `toOrdinal 1 1 1 = 1`. -/
def toOrdinal (y m d : Int) : Int :=
  daysBeforeYear y + daysBeforeMonth y m + d

theorem daysInYear_eq (y : Int) :
    daysInYear y = if y % 4 = 0 ∧ (y % 100 ≠ 0 ∨ y % 400 = 0) then 366 else 365 := by
  rw [daysInYear]
  by_cases h : y % 4 = 0 ∧ (y % 100 ≠ 0 ∨ y % 400 = 0)
  · rw [if_pos ((isLeap_iff y).mpr h), if_pos h]
  · rw [if_neg (fun hc => h ((isLeap_iff y).mp hc)), if_neg h]

theorem daysBeforeYear_succ (y : Int) :
    daysBeforeYear (y + 1) = daysBeforeYear y + daysInYear y := by
  rw [daysInYear_eq]
  unfold daysBeforeYear
  split <;> omega

theorem daysBeforeYear_one : daysBeforeYear 1 = 0 := by decide

theorem daysBeforeYear_mono {a b : Int} (h : a ≤ b) :
    daysBeforeYear a ≤ daysBeforeYear b := by
  unfold daysBeforeYear
  omega

theorem daysInYear_pos (y : Int) : 365 ≤ daysInYear y ∧ daysInYear y ≤ 366 := by
  rw [daysInYear_eq]; split <;> omega

theorem daysBeforeYear_add_le {a b : Int} (h : a < b) :
    daysBeforeYear a + daysInYear a ≤ daysBeforeYear b := by
  have h1 : daysBeforeYear (a + 1) ≤ daysBeforeYear b := daysBeforeYear_mono (by omega)
  rw [daysBeforeYear_succ] at h1
  exact h1

/-- `daysBeforeMonth` written as one `if`-free table for arithmetic reasoning:
for months `1..12` the running total of month lengths. -/
theorem daysBeforeMonth_add_daysInMonth {y m : Int} (h1 : 1 ≤ m) (h12 : m ≤ 11) :
    daysBeforeMonth y m + daysInMonth y m = daysBeforeMonth y (m + 1) := by
  unfold daysBeforeMonth daysInMonth
  interval_cases m <;> by_cases h : isLeap y <;> simp [h]

theorem daysBeforeMonth_one (y : Int) : daysBeforeMonth y 1 = 0 := by
  simp [daysBeforeMonth]

theorem daysBeforeMonth_last (y : Int) :
    daysBeforeMonth y 12 + daysInMonth y 12 = daysInYear y := by
  unfold daysBeforeMonth daysInMonth daysInYear
  by_cases h : isLeap y <;> simp [h]

theorem daysInMonth_pos (y m : Int) : 1 ≤ daysInMonth y m := by
  unfold daysInMonth
  split
  · split <;> omega
  · split <;> omega

/-- Day-of-year bounds: for a valid month/day pair the zero-based day of
year lies in `[0, daysInYear y)`. -/
theorem dayOfYear_bounds {y m d : Int} (hm1 : 1 ≤ m) (hm2 : m ≤ 12)
    (hd1 : 1 ≤ d) (hd2 : d ≤ daysInMonth y m) :
    0 ≤ daysBeforeMonth y m + d - 1 ∧
      daysBeforeMonth y m + d - 1 < daysInYear y := by
  unfold daysBeforeMonth daysInMonth daysInYear at *
  interval_cases m <;> by_cases h : isLeap y <;> simp [h] at * <;> omega

/-- Year scan of the modelled `_ord2ymd`: starting from year `y` with `n`
days (zero-based) remaining, advance one year at a time while `n` does not
fall inside the current year; returns the final year and the zero-based
day of year. -/
def findYearAux : Nat → Int → Int → Int × Int
  | 0, y, n => (y, n)
  | fuel + 1, y, n =>
    if n < daysInYear y then (y, n) else findYearAux fuel (y + 1) (n - daysInYear y)

/-- Month scan of the modelled `_ord2ymd`: starting from month `m` of year
`y` with `doy` days (zero-based) remaining inside the year, advance one
month at a time; returns the month and the zero-based day of month. -/
def findMonthAux : Nat → Int → Int → Int → Int × Int
  | 0, _, m, doy => (m, doy)
  | fuel + 1, y, m, doy =>
    if doy < daysInMonth y m then (m, doy)
    else findMonthAux fuel y (m + 1) (doy - daysInMonth y m)

/-- Model of CPython `_ord2ymd(n)` / `date.fromordinal(n)`: the inverse of
`toOrdinal` on the proleptic Gregorian calendar. -/
def fromOrdinal (n : Int) : Int × Int × Int :=
  let yk := findYearAux n.toNat 1 (n - 1)
  let md := findMonthAux 12 yk.1 1 yk.2
  (yk.1, md.1, md.2 + 1)

theorem findYearAux_spec : ∀ (fuel : Nat) (y n : Int), 0 ≤ n →
    n ≤ 365 * (fuel : Int) + 364 →
    y ≤ (findYearAux fuel y n).1 ∧
      0 ≤ (findYearAux fuel y n).2 ∧
      (findYearAux fuel y n).2 < daysInYear (findYearAux fuel y n).1 ∧
      daysBeforeYear (findYearAux fuel y n).1 + (findYearAux fuel y n).2 =
        daysBeforeYear y + n := by
  intro fuel
  induction fuel with
  | zero =>
    intro y n h0 hb
    have := daysInYear_pos y
    simp only [findYearAux]
    exact ⟨le_rfl, h0, by omega, by trivial⟩
  | succ fuel ih =>
    intro y n h0 hb
    have hdy := daysInYear_pos y
    simp only [findYearAux]
    split
    · dsimp only
      omega
    · have hrec := ih (y + 1) (n - daysInYear y) (by omega) (by push_cast at hb ⊢; omega)
      have hsucc := daysBeforeYear_succ y
      constructor
      · omega
      · refine ⟨hrec.2.1, hrec.2.2.1, ?_⟩
        omega

theorem findMonthAux_spec : ∀ (fuel : Nat) (y m doy : Int), 1 ≤ m →
    m + (fuel : Int) ≥ 13 → m ≤ 12 → 0 ≤ doy →
    daysBeforeMonth y m + doy < daysInYear y →
    1 ≤ (findMonthAux fuel y m doy).1 ∧
      (findMonthAux fuel y m doy).1 ≤ 12 ∧
      0 ≤ (findMonthAux fuel y m doy).2 ∧
      (findMonthAux fuel y m doy).2 < daysInMonth y (findMonthAux fuel y m doy).1 ∧
      daysBeforeMonth y (findMonthAux fuel y m doy).1 + (findMonthAux fuel y m doy).2 =
        daysBeforeMonth y m + doy := by
  intro fuel
  induction fuel with
  | zero =>
    intro y m doy h1 hf h12 h0 hiy
    push_cast at hf
    omega
  | succ fuel ih =>
    intro y m doy h1 hf h12 h0 hiy
    simp only [findMonthAux]
    split
    · dsimp only
      omega
    · rename_i hge
      push_neg at hge
      by_cases hm12 : m = 12
      · exfalso
        have := daysBeforeMonth_last y
        subst hm12
        omega
      · have hadd := daysBeforeMonth_add_daysInMonth (y := y) h1 (by omega)
        have hrec := ih y (m + 1) (doy - daysInMonth y m) (by omega)
          (by push_cast at hf ⊢; omega) (by omega) (by omega) (by omega)
        omega

theorem fromOrdinal_eq (n : Int) :
    fromOrdinal n = ((findYearAux n.toNat 1 (n - 1)).1,
      (findMonthAux 12 (findYearAux n.toNat 1 (n - 1)).1 1
        (findYearAux n.toNat 1 (n - 1)).2).1,
      (findMonthAux 12 (findYearAux n.toNat 1 (n - 1)).1 1
        (findYearAux n.toNat 1 (n - 1)).2).2 + 1) := rfl

/-- A valid proleptic Gregorian date: year at least 1, month in `1..12`,
day in `1..daysInMonth`. -/
def ValidDate (y m d : Int) : Prop :=
  1 ≤ y ∧ 1 ≤ m ∧ m ≤ 12 ∧ 1 ≤ d ∧ d ≤ daysInMonth y m

instance (y m d : Int) : Decidable (ValidDate y m d) := by
  unfold ValidDate; infer_instance

theorem daysBeforeMonth_nonneg (y m : Int) : 0 ≤ daysBeforeMonth y m := by
  unfold daysBeforeMonth
  split
  · split <;> omega
  · split
    · split <;> omega
    · split
      · split <;> omega
      · split
        · split <;> omega
        · split
          · split <;> omega
          · split
            · split <;> omega
            · split
              · split <;> omega
              · split
                · split <;> omega
                · split
                  · split <;> omega
                  · split
                    · split <;> omega
                    · split
                      · split <;> omega
                      · split <;> omega

theorem daysBeforeMonth_mono {y m k : Int} (h1 : 1 ≤ m) (h : m ≤ k)
    (h12 : k ≤ 12) : daysBeforeMonth y m ≤ daysBeforeMonth y k := by
  refine Int.le_induction (P := fun j => j ≤ 12 → daysBeforeMonth y m ≤ daysBeforeMonth y j)
    (fun _ => le_rfl) ?_ k h h12
  intro j hj ih hj12
  have hstep := daysBeforeMonth_add_daysInMonth (y := y) (m := j)
    (by omega) (by omega)
  have hpos := daysInMonth_pos y j
  have := ih (by omega)
  omega

theorem fromOrdinal_spec {n : Int} (hn : 1 ≤ n) :
    ValidDate (fromOrdinal n).1 (fromOrdinal n).2.1 (fromOrdinal n).2.2 ∧
      toOrdinal (fromOrdinal n).1 (fromOrdinal n).2.1 (fromOrdinal n).2.2 = n := by
  have hy := findYearAux_spec n.toNat 1 (n - 1) (by omega) (by omega)
  have hm := findMonthAux_spec 12 (findYearAux n.toNat 1 (n - 1)).1 1
    (findYearAux n.toNat 1 (n - 1)).2 (by omega) (by norm_num) (by norm_num)
    hy.2.1 (by rw [daysBeforeMonth_one]; omega)
  rw [fromOrdinal_eq]
  have h1 := daysBeforeYear_one
  have hb1 := daysBeforeMonth_one (findYearAux n.toNat 1 (n - 1)).1
  unfold ValidDate toOrdinal
  dsimp only
  omega

theorem toOrdinal_bounds {y m d : Int} (h : ValidDate y m d) :
    daysBeforeYear y + 1 ≤ toOrdinal y m d ∧
      toOrdinal y m d ≤ daysBeforeYear y + daysInYear y := by
  obtain ⟨hy, hm1, hm2, hd1, hd2⟩ := h
  have := dayOfYear_bounds hm1 hm2 hd1 hd2
  unfold toOrdinal
  omega

theorem toOrdinal_pos {y m d : Int} (h : ValidDate y m d) : 1 ≤ toOrdinal y m d := by
  have hb := toOrdinal_bounds h
  have h0 : daysBeforeYear 1 ≤ daysBeforeYear y := daysBeforeYear_mono h.1
  have h1 := daysBeforeYear_one
  omega

theorem toOrdinal_inj {y m d y' m' d' : Int} (h : ValidDate y m d)
    (h' : ValidDate y' m' d') (heq : toOrdinal y m d = toOrdinal y' m' d') :
    y = y' ∧ m = m' ∧ d = d' := by
  have hb := toOrdinal_bounds h
  have hb' := toOrdinal_bounds h'
  have hyy : y = y' := by
    rcases lt_trichotomy y y' with hlt | heqy | hgt
    · exfalso
      have := daysBeforeYear_add_le hlt
      omega
    · exact heqy
    · exfalso
      have := daysBeforeYear_add_le hgt
      omega
  subst hyy
  obtain ⟨hy, hm1, hm2, hd1, hd2⟩ := h
  obtain ⟨_, hm1', hm2', hd1', hd2'⟩ := h'
  unfold toOrdinal at heq
  have hmm : m = m' := by
    rcases lt_trichotomy m m' with hlt | heqm | hgt
    · exfalso
      have hstep := daysBeforeMonth_add_daysInMonth (y := y) hm1 (by omega)
      have hmono := daysBeforeMonth_mono (y := y) (m := m + 1) (k := m')
        (by omega) (by omega) hm2'
      omega
    · exact heqm
    · exfalso
      have hstep := daysBeforeMonth_add_daysInMonth (y := y) hm1' (by omega)
      have hmono := daysBeforeMonth_mono (y := y) (m := m' + 1) (k := m)
        (by omega) (by omega) hm2
      omega
  subst hmm
  omega

/-- Round trip: converting a valid date to its ordinal and back is the
identity. -/
theorem fromOrdinal_toOrdinal {y m d : Int} (h : ValidDate y m d) :
    fromOrdinal (toOrdinal y m d) = (y, m, d) := by
  have hs := fromOrdinal_spec (toOrdinal_pos h)
  have := toOrdinal_inj hs.1 h hs.2
  obtain ⟨e1, e2, e3⟩ := this
  ext <;> simp [e1, e2, e3]

/-- Round trip: the ordinal of `fromOrdinal n` is `n` again. -/
theorem toOrdinal_fromOrdinal {n : Int} (hn : 1 ≤ n) :
    toOrdinal (fromOrdinal n).1 (fromOrdinal n).2.1 (fromOrdinal n).2.2 = n :=
  (fromOrdinal_spec hn).2

/-! ## Date-times

Model of Python `datetime.datetime`: a record of calendar fields.
Python compares datetimes lexicographically on the field tuple, which for
valid datetimes coincides with chronological order. -/

structure DateTime where
  year : Int
  month : Int
  day : Int
  hour : Int := 0
  minute : Int := 0
  second : Int := 0
  microsecond : Int := 0
deriving DecidableEq, Repr

/-- A valid Python datetime (year-range upper bound not modelled). -/
def DateTime.Valid (t : DateTime) : Prop :=
  ValidDate t.year t.month t.day ∧ 0 ≤ t.hour ∧ t.hour < 24 ∧
    0 ≤ t.minute ∧ t.minute < 60 ∧ 0 ≤ t.second ∧ t.second < 60 ∧
    0 ≤ t.microsecond ∧ t.microsecond < 1000000

instance (t : DateTime) : Decidable t.Valid := by
  unfold DateTime.Valid; infer_instance

/-- Python datetime comparison `a < b`: lexicographic on the field tuple. -/
def dtLt (a b : DateTime) : Bool :=
  if a.year ≠ b.year then a.year < b.year
  else if a.month ≠ b.month then a.month < b.month
  else if a.day ≠ b.day then a.day < b.day
  else if a.hour ≠ b.hour then a.hour < b.hour
  else if a.minute ≠ b.minute then a.minute < b.minute
  else if a.second ≠ b.second then a.second < b.second
  else a.microsecond < b.microsecond

/-- `datetime(y, m, d)`: midnight of the given calendar day. -/
def mkDate (y m d : Int) : DateTime :=
  { year := y, month := m, day := d }

/-- Python `dt + timedelta(days = k)` for a whole number of days: convert
the date part through the ordinal, keep the time part. -/
def addDays (t : DateTime) (k : Int) : DateTime :=
  let ymd := fromOrdinal (toOrdinal t.year t.month t.day + k)
  { year := ymd.1, month := ymd.2.1, day := ymd.2.2,
    hour := t.hour, minute := t.minute, second := t.second,
    microsecond := t.microsecond }

/-! ## ISO calendar (CPython `_isoweek1monday`, `date.isocalendar`,
`datetime.fromisocalendar`) -/

/-- CPython `_isoweek1monday(year)`: ordinal of the Monday starting ISO
week 1 of `year`. -/
def isoweek1monday (y : Int) : Int :=
  let firstday := toOrdinal y 1 1
  let firstweekday := (firstday + 6) % 7
  let week1monday := firstday - firstweekday
  if firstweekday > 3 then week1monday + 7 else week1monday

/-- CPython `date.isocalendar()`: the ISO year, week and weekday of a
date, as a triple. -/
def isocalendar (t : DateTime) : Int × Int × Int :=
  let year := t.year
  let today := toOrdinal t.year t.month t.day
  let w1m := isoweek1monday year
  let week := (today - w1m) / 7
  let day := (today - w1m) % 7
  if week < 0 then
    let w1mPrev := isoweek1monday (year - 1)
    (year - 1, (today - w1mPrev) / 7 + 1, (today - w1mPrev) % 7 + 1)
  else if week ≥ 52 ∧ today ≥ isoweek1monday (year + 1) then
    (year + 1, 1, day + 1)
  else
    (year, week + 1, day + 1)

/-- CPython `_isoweek_to_gregorian(year, week, day)` as used by
`datetime.fromisocalendar`; `none` models the `ValueError` raised on an
invalid ISO week or weekday (the MINYEAR/MAXYEAR bound is not modelled).
Returns the midnight datetime, as `datetime.fromisocalendar` does. -/
def isoweekToGregorian (year week day : Int) : Option DateTime :=
  let weekOk :=
    (0 < week ∧ week < 53) ∨
      (week = 53 ∧ (toOrdinal year 1 1 % 7 = 4 ∨
        (toOrdinal year 1 1 % 7 = 3 ∧ isLeap year = true)))
  if ¬weekOk then none
  else if ¬(0 < day ∧ day < 8) then none
  else
    let ymd := fromOrdinal (isoweek1monday year + (week - 1) * 7 + (day - 1))
    some (mkDate ymd.1 ymd.2.1 ymd.2.2)

/-- Python `date.weekday()` is `(toordinal + 6) % 7` with Monday = 0
(ordinal 1, January 1 of year 1, is a Monday).  The Monday of the ISO week
containing a date is the date minus its weekday, so its ordinal is
`o - (o + 6) % 7`. -/
def isoWeekMondayOrd (t : DateTime) : Int :=
  toOrdinal t.year t.month t.day - (toOrdinal t.year t.month t.day + 6) % 7

theorem isoweek1monday_mod7 (y : Int) : isoweek1monday y % 7 = 1 := by
  unfold isoweek1monday
  dsimp only
  split <;> omega

theorem isoweek1monday_near_jan1 (y : Int) :
    toOrdinal y 1 1 - 3 ≤ isoweek1monday y ∧
      isoweek1monday y ≤ toOrdinal y 1 1 + 3 := by
  unfold isoweek1monday
  dsimp only
  split <;> omega

theorem jan1_succ (y : Int) :
    toOrdinal (y + 1) 1 1 = toOrdinal y 1 1 + daysInYear y := by
  unfold toOrdinal
  rw [daysBeforeMonth_one, daysBeforeMonth_one, daysBeforeYear_succ]
  ring

theorem isoweek1monday_gap (y : Int) :
    isoweek1monday (y + 1) - isoweek1monday y = 364 ∨
      isoweek1monday (y + 1) - isoweek1monday y = 371 := by
  have hA0 := isoweek1monday_mod7 y
  have hA1 := isoweek1monday_mod7 (y + 1)
  have hB0 := isoweek1monday_near_jan1 y
  have hB1 := isoweek1monday_near_jan1 (y + 1)
  have hC := jan1_succ y
  have hD := daysInYear_pos y
  omega

theorem isoweek1monday_gap_371 (y : Int) :
    isoweek1monday (y + 1) - isoweek1monday y = 371 ↔
      (toOrdinal y 1 1 % 7 = 4 ∨
        (toOrdinal y 1 1 % 7 = 3 ∧
          (y % 4 = 0 ∧ (y % 100 ≠ 0 ∨ y % 400 = 0)))) := by
  have hC := jan1_succ y
  have hdiy := daysInYear_eq y
  unfold isoweek1monday
  dsimp only
  rw [hC]
  split at hdiy
  · rename_i hcond
    split <;> split <;> omega
  · rename_i hcond
    split <;> split <;> omega

/-- The ordinal of a valid date lies within its calendar year. -/
theorem ord_in_year {t : DateTime} (h : t.Valid) :
    toOrdinal t.year 1 1 ≤ toOrdinal t.year t.month t.day ∧
      toOrdinal t.year t.month t.day < toOrdinal t.year 1 1 + daysInYear t.year := by
  have hb := toOrdinal_bounds h.1
  unfold toOrdinal at *
  rw [daysBeforeMonth_one]
  omega

/-- Core correctness of the ISO-week round trip performed by
`recalculate_period`: the ISO year and week computed by `isocalendar` pass
`fromisocalendar`'s week validation, and the Monday of that ISO week is
the date's ordinal minus its weekday. -/
theorem isocalendar_week_spec {t : DateTime} (h : t.Valid) :
    ((0 < (isocalendar t).2.1 ∧ (isocalendar t).2.1 < 53) ∨
      ((isocalendar t).2.1 = 53 ∧
        (toOrdinal (isocalendar t).1 1 1 % 7 = 4 ∨
          (toOrdinal (isocalendar t).1 1 1 % 7 = 3 ∧
            ((isocalendar t).1 % 4 = 0 ∧
              ((isocalendar t).1 % 100 ≠ 0 ∨ (isocalendar t).1 % 400 = 0)))))) ∧
      isoweek1monday (isocalendar t).1 + ((isocalendar t).2.1 - 1) * 7 =
        isoWeekMondayOrd t := by
  have hA0 := isoweek1monday_mod7 t.year
  have hAp := isoweek1monday_mod7 (t.year + 1)
  have hAm := isoweek1monday_mod7 (t.year - 1)
  have hB0 := isoweek1monday_near_jan1 t.year
  have hBp := isoweek1monday_near_jan1 (t.year + 1)
  have hBm := isoweek1monday_near_jan1 (t.year - 1)
  have hC0 := jan1_succ t.year
  have hCm := jan1_succ (t.year - 1)
  rw [show t.year - 1 + 1 = t.year by ring] at hCm
  have hD0 := isoweek1monday_gap t.year
  have hDm := isoweek1monday_gap (t.year - 1)
  rw [show t.year - 1 + 1 = t.year by ring] at hDm
  have hE0 := isoweek1monday_gap_371 t.year
  have hEm := isoweek1monday_gap_371 (t.year - 1)
  rw [show t.year - 1 + 1 = t.year by ring] at hEm
  have hdy0 := daysInYear_pos t.year
  have hdym := daysInYear_pos (t.year - 1)
  have hF := ord_in_year h
  unfold isocalendar isoWeekMondayOrd
  dsimp only
  split
  · dsimp only
    omega
  · split
    · dsimp only
      omega
    · dsimp only
      omega

/-- The midnight datetime of the day with proleptic Gregorian ordinal `n`. -/
def dateOfOrdinal (n : Int) : DateTime :=
  mkDate (fromOrdinal n).1 (fromOrdinal n).2.1 (fromOrdinal n).2.2

/-- Feeding `isocalendar`'s ISO year and week back into
`fromisocalendar` (with weekday 1) succeeds and returns midnight of the
Monday of the ISO week containing the date. -/
theorem iso_roundtrip {t : DateTime} (h : t.Valid) :
    isoweekToGregorian (isocalendar t).1 (isocalendar t).2.1 1 =
      some (dateOfOrdinal (isoWeekMondayOrd t)) := by
  have hw := isocalendar_week_spec h
  unfold isoweekToGregorian
  dsimp only
  rw [if_neg, if_neg]
  · have hord : isoweek1monday (isocalendar t).1 + ((isocalendar t).2.1 - 1) * 7 + (1 - 1)
        = isoWeekMondayOrd t := by
      have := hw.2
      omega
    rw [hord]
    rfl
  · norm_num
  · rw [not_not, isLeap_iff]
    exact hw.1

@[simp] theorem mkDate_year (y m d : Int) : (mkDate y m d).year = y := rfl
@[simp] theorem mkDate_month (y m d : Int) : (mkDate y m d).month = m := rfl
@[simp] theorem mkDate_day (y m d : Int) : (mkDate y m d).day = d := rfl
@[simp] theorem mkDate_hour (y m d : Int) : (mkDate y m d).hour = 0 := rfl
@[simp] theorem mkDate_minute (y m d : Int) : (mkDate y m d).minute = 0 := rfl
@[simp] theorem mkDate_second (y m d : Int) : (mkDate y m d).second = 0 := rfl
@[simp] theorem mkDate_microsecond (y m d : Int) :
    (mkDate y m d).microsecond = 0 := rfl

/-- Spec-side "midnight of the next calendar day": increment the day,
rolling over month and year ends. -/
def calendarTomorrow (t : DateTime) : DateTime :=
  if t.day < daysInMonth t.year t.month then mkDate t.year t.month (t.day + 1)
  else if t.month < 12 then mkDate t.year (t.month + 1) 1
  else mkDate (t.year + 1) 1 1

theorem calendarTomorrow_valid {t : DateTime} (h : t.Valid) :
    ValidDate (calendarTomorrow t).year (calendarTomorrow t).month
      (calendarTomorrow t).day := by
  obtain ⟨⟨hy, hm1, hm2, hd1, hd2⟩, _⟩ := h
  have hp1 := daysInMonth_pos t.year (t.month + 1)
  have hp2 := daysInMonth_pos (t.year + 1) 1
  unfold calendarTomorrow ValidDate
  split
  · simp only [mkDate_year, mkDate_month, mkDate_day]
    omega
  · split
    · simp only [mkDate_year, mkDate_month, mkDate_day]
      omega
    · simp only [mkDate_year, mkDate_month, mkDate_day]
      omega

theorem toOrdinal_tomorrow {t : DateTime} (h : t.Valid) :
    toOrdinal (calendarTomorrow t).year (calendarTomorrow t).month
      (calendarTomorrow t).day = toOrdinal t.year t.month t.day + 1 := by
  obtain ⟨⟨hy, hm1, hm2, hd1, hd2⟩, _⟩ := h
  unfold calendarTomorrow
  split
  · unfold toOrdinal
    simp only [mkDate_year, mkDate_month, mkDate_day]
    omega
  · rename_i hdge
    split
    · rename_i hmlt
      have hstep := daysBeforeMonth_add_daysInMonth (y := t.year) hm1 (by omega)
      unfold toOrdinal
      simp only [mkDate_year, mkDate_month, mkDate_day]
      omega
    · rename_i hmge
      have hm12 : t.month = 12 := by omega
      have hlast := daysBeforeMonth_last t.year
      have hsucc := daysBeforeYear_succ t.year
      have hb1 := daysBeforeMonth_one (t.year + 1)
      unfold toOrdinal
      simp only [mkDate_year, mkDate_month, mkDate_day]
      rw [hm12] at hd2 hdge ⊢
      omega

/-- `date + timedelta(days=1)` on a midnight datetime is the midnight of
the next calendar day. -/
theorem addDays_one {t : DateTime} (h : t.Valid) :
    addDays (mkDate t.year t.month t.day) 1 = calendarTomorrow t := by
  unfold addDays
  dsimp only
  have h1 : toOrdinal (mkDate t.year t.month t.day).year
      (mkDate t.year t.month t.day).month (mkDate t.year t.month t.day).day
      = toOrdinal t.year t.month t.day := rfl
  rw [h1, ← toOrdinal_tomorrow h, fromOrdinal_toOrdinal (calendarTomorrow_valid h)]
  unfold calendarTomorrow mkDate
  split
  · rfl
  · split <;> rfl

/-! ## The Budget model (`bookkeeper/models/budget.py`)

`datetime.now()` is passed in explicitly as `now`; a `none` result models
an exception escaping the method (`NotImplementedError` for an unknown
special budget type, or `ValueError` out of `fromisocalendar`). -/

/-- `constants.BUDGET_DAILY`. -/
def BUDGET_DAILY : String := "Daily"
/-- `constants.BUDGET_WEEKLY`. -/
def BUDGET_WEEKLY : String := "Weekly"
/-- `constants.BUDGET_MONTHLY`. -/
def BUDGET_MONTHLY : String := "Monthly"

/-- `models/budget.py` `Budget` dataclass.  `end_` stands for the Python
field `end` (a reserved word in Lean). -/
structure Budget where
  cost_limit : Int := 0
  start : DateTime
  end_ : DateTime
  budget_type : String := ""
  category : Option Int := none
  pk : Int := 0
deriving DecidableEq, Repr

/-- `Budget.recalculate_period`, with `datetime.now()` passed as `now`.
As in the source, the week start is computed (and can fail) before the
branch on the budget type, and an unrecognised non-empty type raises
`NotImplementedError` (modelled as `none`). -/
def Budget.recalculate_period (b : Budget) (now : DateTime) : Option Budget :=
  if b.budget_type = "" then some b else
  let cur_day_start := mkDate now.year now.month now.day
  let nxt_day_start := addDays cur_day_start 1
  let isoc := isocalendar now
  match isoweekToGregorian isoc.1 isoc.2.1 1 with
  | none => none
  | some cur_week_start =>
    let nxt_week_start := addDays cur_week_start 7
    let cur_month_start := mkDate now.year now.month 1
    let nxt_month_start :=
      if now.month < 12 then mkDate now.year (now.month + 1) 1
      else mkDate (now.year + 1) 1 1
    if b.budget_type = BUDGET_DAILY then
      some { b with start := cur_day_start, end_ := nxt_day_start }
    else if b.budget_type = BUDGET_WEEKLY then
      some { b with start := cur_week_start, end_ := nxt_week_start }
    else if b.budget_type = BUDGET_MONTHLY then
      some { b with start := cur_month_start, end_ := nxt_month_start }
    else none

/-- `Budget(...)` dataclass construction: `__post_init__` immediately
calls `recalculate_period`, so construction fails when that raises. -/
def mkBudget (cost_limit : Int) (start end_ : DateTime) (budget_type : String)
    (category : Option Int) (pk : Int) (now : DateTime) : Option Budget :=
  Budget.recalculate_period
    { cost_limit := cost_limit, start := start, end_ := end_,
      budget_type := budget_type, category := category, pk := pk } now

/-- `Budget.set_type`: only the three special types are accepted; on
acceptance the period is recalculated immediately. -/
def Budget.set_type (b : Budget) (new_type : String) (now : DateTime) :
    Option Budget :=
  if new_type = BUDGET_DAILY ∨ new_type = BUDGET_WEEKLY ∨ new_type = BUDGET_MONTHLY then
    Budget.recalculate_period { b with budget_type := new_type } now
  else some b

theorem addDays_dateOfOrdinal {n : Int} (hn : 1 ≤ n) (k : Int) :
    addDays (dateOfOrdinal n) k = dateOfOrdinal (n + k) := by
  unfold addDays dateOfOrdinal
  dsimp only
  rw [show toOrdinal (mkDate (fromOrdinal n).1 (fromOrdinal n).2.1 (fromOrdinal n).2.2).year
      (mkDate (fromOrdinal n).1 (fromOrdinal n).2.1 (fromOrdinal n).2.2).month
      (mkDate (fromOrdinal n).1 (fromOrdinal n).2.1 (fromOrdinal n).2.2).day
      = toOrdinal (fromOrdinal n).1 (fromOrdinal n).2.1 (fromOrdinal n).2.2 from rfl]
  rw [toOrdinal_fromOrdinal hn]
  rfl

/-- The ordinal produced by `isoWeekMondayOrd` is a Monday
(`ordinal % 7 = 1`), is at most the date's own ordinal, and the date falls
within the following seven days: it is the Monday of the ISO week
containing the date. -/
theorem isoWeekMondayOrd_is_monday_of_week (t : DateTime) :
    isoWeekMondayOrd t % 7 = 1 ∧
      isoWeekMondayOrd t ≤ toOrdinal t.year t.month t.day ∧
      toOrdinal t.year t.month t.day < isoWeekMondayOrd t + 7 := by
  unfold isoWeekMondayOrd
  omega

theorem isoWeekMondayOrd_pos {t : DateTime} (h : t.Valid) :
    1 ≤ isoWeekMondayOrd t := by
  have h1 := toOrdinal_pos h.1
  unfold isoWeekMondayOrd
  omega

/-- C4 (general part): what `recalculate_period` does for each budget
type, for an arbitrary current instant `now`. -/
theorem recalculate_period_spec (b : Budget) (now : DateTime) (h : now.Valid) :
    (b.budget_type = "" → b.recalculate_period now = some b) ∧
    (b.budget_type = BUDGET_DAILY → b.recalculate_period now =
      some { b with start := mkDate now.year now.month now.day,
                    end_ := calendarTomorrow now }) ∧
    (b.budget_type = BUDGET_WEEKLY → b.recalculate_period now =
      some { b with start := dateOfOrdinal (isoWeekMondayOrd now),
                    end_ := dateOfOrdinal (isoWeekMondayOrd now + 7) }) ∧
    (b.budget_type = BUDGET_MONTHLY → b.recalculate_period now =
      some { b with start := mkDate now.year now.month 1,
                    end_ := if now.month < 12 then mkDate now.year (now.month + 1) 1
                            else mkDate (now.year + 1) 1 1 }) := by
  refine ⟨?_, ?_, ?_, ?_⟩ <;> intro hbt
  · unfold Budget.recalculate_period
    rw [if_pos hbt]
  · unfold Budget.recalculate_period
    rw [if_neg (by rw [hbt]; unfold BUDGET_DAILY; decide)]
    dsimp only
    rw [iso_roundtrip h]
    dsimp only
    rw [if_pos hbt, addDays_one h]
  · unfold Budget.recalculate_period
    rw [if_neg (by rw [hbt]; unfold BUDGET_WEEKLY; decide)]
    dsimp only
    rw [iso_roundtrip h]
    dsimp only
    rw [if_neg (by rw [hbt]; unfold BUDGET_WEEKLY BUDGET_DAILY; decide),
      if_pos hbt, addDays_dateOfOrdinal (isoWeekMondayOrd_pos h)]
  · unfold Budget.recalculate_period
    rw [if_neg (by rw [hbt]; unfold BUDGET_MONTHLY; decide)]
    dsimp only
    rw [iso_roundtrip h]
    dsimp only
    rw [if_neg (by rw [hbt]; unfold BUDGET_MONTHLY BUDGET_DAILY; decide),
      if_neg (by rw [hbt]; unfold BUDGET_MONTHLY BUDGET_WEEKLY; decide),
      if_pos hbt]

set_option maxRecDepth 40000 in
/-- Witness for C4 at `now` = 2024-12-31 00:00:00 (the spec's concrete
case): the Daily window is `[2024-12-31, 2025-01-01)`, the Monthly window
is `[2024-12-01, 2025-01-01)`, and the Weekly window starts on Monday
2024-12-30. -/
theorem recalculate_period_spec_witness :
    (DateTime.mk 2024 12 31 0 0 0 0).Valid ∧
      Budget.recalculate_period
          { start := mkDate 2024 12 31, end_ := mkDate 2024 12 31,
            budget_type := "Daily" } (DateTime.mk 2024 12 31 0 0 0 0)
        = some { start := mkDate 2024 12 31, end_ := mkDate 2025 1 1,
                 budget_type := "Daily" } ∧
      Budget.recalculate_period
          { start := mkDate 2024 12 31, end_ := mkDate 2024 12 31,
            budget_type := "Monthly" } (DateTime.mk 2024 12 31 0 0 0 0)
        = some { start := mkDate 2024 12 1, end_ := mkDate 2025 1 1,
                 budget_type := "Monthly" } ∧
      Budget.recalculate_period
          { start := mkDate 2024 12 31, end_ := mkDate 2024 12 31,
            budget_type := "Weekly" } (DateTime.mk 2024 12 31 0 0 0 0)
        = some { start := mkDate 2024 12 30, end_ := mkDate 2025 1 6,
                 budget_type := "Weekly" } := by
  refine ⟨by decide, ?_, ?_, ?_⟩
  · rw [(recalculate_period_spec
      { start := mkDate 2024 12 31, end_ := mkDate 2024 12 31, budget_type := "Daily" }
      (DateTime.mk 2024 12 31 0 0 0 0) (by decide)).2.1 rfl]
    decide
  · rw [(recalculate_period_spec
      { start := mkDate 2024 12 31, end_ := mkDate 2024 12 31, budget_type := "Monthly" }
      (DateTime.mk 2024 12 31 0 0 0 0) (by decide)).2.2.2 rfl]
    decide
  · rw [(recalculate_period_spec
      { start := mkDate 2024 12 31, end_ := mkDate 2024 12 31, budget_type := "Weekly" }
      (DateTime.mk 2024 12 31 0 0 0 0) (by decide)).2.2.1 rfl]
    decide

/-- C9: constructing a `Budget` whose type is none of `Daily`, `Weekly`,
`Monthly` or the empty (custom) string fails: `__post_init__` calls
`recalculate_period`, which raises rather than silently ignoring the
unknown type. -/
theorem budget_construction_unknown_type_fails
    (cost_limit : Int) (start end_ : DateTime) (bt : String)
    (category : Option Int) (pk : Int) (now : DateTime)
    (h0 : bt ≠ "") (h1 : bt ≠ BUDGET_DAILY) (h2 : bt ≠ BUDGET_WEEKLY)
    (h3 : bt ≠ BUDGET_MONTHLY) :
    mkBudget cost_limit start end_ bt category pk now = none := by
  unfold mkBudget Budget.recalculate_period
  rw [if_neg h0]
  dsimp only
  cases hiso : isoweekToGregorian (isocalendar now).1 (isocalendar now).2.1 1 with
  | none => rfl
  | some cw =>
    dsimp only
    rw [if_neg h1, if_neg h2, if_neg h3]

/-- Witness for C9: a budget typed `"Yearly"` cannot be constructed. -/
theorem budget_construction_unknown_type_fails_witness :
    ("Yearly" ≠ "" ∧ "Yearly" ≠ BUDGET_DAILY ∧ "Yearly" ≠ BUDGET_WEEKLY ∧
        "Yearly" ≠ BUDGET_MONTHLY) ∧
      mkBudget 0 (mkDate 2024 12 31) (mkDate 2024 12 31) "Yearly" none 0
        (DateTime.mk 2024 12 31 0 0 0 0) = none :=
  ⟨⟨by decide, by decide, by decide, by decide⟩,
    budget_construction_unknown_type_fails 0 (mkDate 2024 12 31)
      (mkDate 2024 12 31) "Yearly" none 0 (DateTime.mk 2024 12 31 0 0 0 0)
      (by decide) (by decide) (by decide) (by decide)⟩

/-- C10: `set_type` with any string other than the three special types
(including `"Custom"` and the empty string) raises no error and leaves the
budget record completely unchanged: a silent no-op. -/
theorem set_type_noop (b : Budget) (nt : String) (now : DateTime)
    (h1 : nt ≠ BUDGET_DAILY) (h2 : nt ≠ BUDGET_WEEKLY) (h3 : nt ≠ BUDGET_MONTHLY) :
    b.set_type nt now = some b := by
  unfold Budget.set_type
  rw [if_neg]
  simp [h1, h2, h3]

/-- Witness for C10 with `"Custom"` and with the empty string. -/
theorem set_type_noop_witness :
    ("Custom" ≠ BUDGET_DAILY ∧ "Custom" ≠ BUDGET_WEEKLY ∧ "Custom" ≠ BUDGET_MONTHLY) ∧
      Budget.set_type
        { cost_limit := 5, start := mkDate 2024 12 31, end_ := mkDate 2025 1 1,
          budget_type := "", category := some 3, pk := 7 } "Custom"
        (DateTime.mk 2024 12 31 0 0 0 0)
      = some { cost_limit := 5, start := mkDate 2024 12 31, end_ := mkDate 2025 1 1,
               budget_type := "", category := some 3, pk := 7 } ∧
      Budget.set_type
        { cost_limit := 5, start := mkDate 2024 12 31, end_ := mkDate 2025 1 1,
          budget_type := "", category := some 3, pk := 7 } ""
        (DateTime.mk 2024 12 31 0 0 0 0)
      = some { cost_limit := 5, start := mkDate 2024 12 31, end_ := mkDate 2025 1 1,
               budget_type := "", category := some 3, pk := 7 } :=
  ⟨⟨by decide, by decide, by decide⟩,
    set_type_noop _ "Custom" _ (by decide) (by decide) (by decide),
    set_type_noop _ "" _ (by decide) (by decide) (by decide)⟩

/-! ## Expenses and presenter reconciliation (`bookkeeper/main.py`) -/

/-- `models/expense.py` `Expense` dataclass. -/
structure Expense where
  cost : Int := 0
  category : Option Int := none
  expense_date : DateTime
  added_date : DateTime
  comment : String := ""
  pk : Int := 0
deriving DecidableEq, Repr

/-- `BookKeeper._calculate_spent`: iterate over all stored expenses and
accumulate the cost of those with `budget.start < expense_date < budget.end`. -/
def calculate_spent (budget : Budget) (expenses : List Expense) : Int :=
  expenses.foldl
    (fun spent exp =>
      if dtLt budget.start exp.expense_date && dtLt exp.expense_date budget.end_ then
        spent + exp.cost
      else spent)
    0

/-- `constants.RGB_RESET_COLOR`. -/
def RGB_RESET_COLOR : Int × Int × Int := (-1, -1, -1)
/-- `constants.RGB_BUDGET_WARNING`. -/
def RGB_BUDGET_WARNING : Int × Int × Int := (150, 150, 0)
/-- `constants.RGB_BUDGET_OVERRUN`. -/
def RGB_BUDGET_OVERRUN : Int × Int × Int := (150, 0, 0)
/-- `constants.RGB_BUDGET_DEFAULT`. -/
def RGB_BUDGET_DEFAULT : Int × Int × Int := RGB_RESET_COLOR

/-- `BookKeeper._determine_budget_color`.  The configured float threshold
`_bud_warn_threshold` is modelled as a rational; `spent` and `cost_limit`
are integers as in the source. -/
def determine_budget_color (budget : Budget) (spent : Int)
    (bud_warn_threshold : ℚ) : Int × Int × Int :=
  let color := RGB_BUDGET_DEFAULT
  let color := if budget.cost_limit > 0 ∧
      (spent : ℚ) > (budget.cost_limit : ℚ) * bud_warn_threshold then
    RGB_BUDGET_WARNING else color
  let color := if budget.cost_limit > 0 ∧ spent > budget.cost_limit then
    RGB_BUDGET_OVERRUN else color
  color

/-- C5: the colour is Overrun exactly when `0 < cost_limit < spent`,
otherwise Warning exactly when `0 < cost_limit` and
`spent > cost_limit * threshold`, otherwise Default; `cost_limit = 0`
always yields Default; and the spec's concrete threshold cases at
`cost_limit = 100`, threshold `0.9`. -/
theorem determine_budget_color_spec :
    (∀ (b : Budget) (spent : Int) (th : ℚ),
      (determine_budget_color b spent th = RGB_BUDGET_OVERRUN ↔
        b.cost_limit > 0 ∧ spent > b.cost_limit) ∧
      (determine_budget_color b spent th = RGB_BUDGET_WARNING ↔
        ¬(b.cost_limit > 0 ∧ spent > b.cost_limit) ∧
          b.cost_limit > 0 ∧ (spent : ℚ) > (b.cost_limit : ℚ) * th) ∧
      (determine_budget_color b spent th = RGB_BUDGET_DEFAULT ↔
        ¬(b.cost_limit > 0 ∧ spent > b.cost_limit) ∧
          ¬(b.cost_limit > 0 ∧ (spent : ℚ) > (b.cost_limit : ℚ) * th))) ∧
    (∀ (b : Budget) (spent : Int) (th : ℚ), b.cost_limit = 0 →
      determine_budget_color b spent th = RGB_BUDGET_DEFAULT) ∧
    determine_budget_color
        { cost_limit := 100, start := mkDate 2024 1 1, end_ := mkDate 2024 1 2 }
        89 (9 / 10) = RGB_BUDGET_DEFAULT ∧
    determine_budget_color
        { cost_limit := 100, start := mkDate 2024 1 1, end_ := mkDate 2024 1 2 }
        91 (9 / 10) = RGB_BUDGET_WARNING ∧
    determine_budget_color
        { cost_limit := 100, start := mkDate 2024 1 1, end_ := mkDate 2024 1 2 }
        101 (9 / 10) = RGB_BUDGET_OVERRUN := by
  have hgen : ∀ (b : Budget) (spent : Int) (th : ℚ),
      determine_budget_color b spent th =
        if b.cost_limit > 0 ∧ spent > b.cost_limit then RGB_BUDGET_OVERRUN
        else if b.cost_limit > 0 ∧ (spent : ℚ) > (b.cost_limit : ℚ) * th then
          RGB_BUDGET_WARNING
        else RGB_BUDGET_DEFAULT := by
    intro b spent th
    rfl
  have hd1 : RGB_BUDGET_OVERRUN ≠ RGB_BUDGET_WARNING := by decide
  have hd2 : RGB_BUDGET_OVERRUN ≠ RGB_BUDGET_DEFAULT := by decide
  have hd3 : RGB_BUDGET_WARNING ≠ RGB_BUDGET_DEFAULT := by decide
  refine ⟨?_, ?_, ?_, ?_, ?_⟩
  · intro b spent th
    rw [hgen]
    by_cases hov : b.cost_limit > 0 ∧ spent > b.cost_limit
    · rw [if_pos hov]
      exact ⟨iff_of_true rfl hov, iff_of_false hd1 (fun hc => hc.1 hov),
        iff_of_false hd2 (fun hc => hc.1 hov)⟩
    · rw [if_neg hov]
      by_cases hwa : b.cost_limit > 0 ∧ (spent : ℚ) > (b.cost_limit : ℚ) * th
      · rw [if_pos hwa]
        exact ⟨iff_of_false (Ne.symm hd1) (fun hc => hov hc),
          iff_of_true rfl ⟨hov, hwa⟩, iff_of_false hd3 (fun hc => hc.2 hwa)⟩
      · rw [if_neg hwa]
        exact ⟨iff_of_false (Ne.symm hd2) (fun hc => hov hc),
          iff_of_false (Ne.symm hd3) (fun hc => hwa hc.2),
          iff_of_true rfl ⟨hov, hwa⟩⟩
  · intro b spent th h0
    rw [hgen]
    simp [h0]
  · rw [hgen]
    norm_num
  · rw [hgen]
    norm_num
  · rw [hgen]
    norm_num

/-- Witness for C5's unlimited-budget clause at `cost_limit = 0`. -/
theorem determine_budget_color_spec_witness :
    (Budget.cost_limit
        { cost_limit := 0, start := mkDate 2024 1 1, end_ := mkDate 2024 1 2 } = 0) ∧
      determine_budget_color
        { cost_limit := 0, start := mkDate 2024 1 1, end_ := mkDate 2024 1 2 }
        1000000 (9 / 10) = RGB_BUDGET_DEFAULT :=
  ⟨rfl, determine_budget_color_spec.2.1
    { cost_limit := 0, start := mkDate 2024 1 1, end_ := mkDate 2024 1 2 }
    1000000 (9 / 10) rfl⟩

theorem dtLt_irrefl (a : DateTime) : dtLt a a = false := by
  unfold dtLt
  simp

/-- Accumulator shift for the `_calculate_spent` fold. -/
theorem calculate_spent_foldl (b : Budget) :
    ∀ (exps : List Expense) (s : Int),
      exps.foldl
        (fun spent exp =>
          if dtLt b.start exp.expense_date && dtLt exp.expense_date b.end_ then
            spent + exp.cost
          else spent) s
      = s + ((exps.filter
          (fun e => dtLt b.start e.expense_date && dtLt e.expense_date b.end_)).map
            Expense.cost).sum := by
  intro exps
  induction exps with
  | nil => intro s; simp
  | cons e rest ih =>
    intro s
    by_cases hc : (dtLt b.start e.expense_date && dtLt e.expense_date b.end_) = true
    · simp only [List.foldl_cons, List.filter_cons, hc, if_pos]
      rw [ih]
      simp
      try ring
    · rw [Bool.not_eq_true] at hc
      simp only [List.foldl_cons, List.filter_cons, hc]
      rw [if_neg (by simp [hc]), ih]
      simp

/-- C6: the spent amount is the sum of the costs of exactly the expenses
whose date is strictly between the budget's start and end (Python
`datetime` comparison); an expense dated exactly at the start or at the
end is not counted. -/
theorem calculate_spent_spec :
    (∀ (b : Budget) (exps : List Expense),
      calculate_spent b exps =
        ((exps.filter
          (fun e => dtLt b.start e.expense_date && dtLt e.expense_date b.end_)).map
            Expense.cost).sum) ∧
    (∀ (b : Budget) (e : Expense) (exps : List Expense),
      e.expense_date = b.start ∨ e.expense_date = b.end_ →
      calculate_spent b (e :: exps) = calculate_spent b exps) := by
  constructor
  · intro b exps
    unfold calculate_spent
    rw [calculate_spent_foldl]
    simp
  · intro b e exps hbound
    unfold calculate_spent
    rw [calculate_spent_foldl, calculate_spent_foldl]
    have hcond : (dtLt b.start e.expense_date && dtLt e.expense_date b.end_) = false := by
      rcases hbound with h | h
      · rw [← h, dtLt_irrefl]
        simp
      · rw [h, dtLt_irrefl]
        simp
    simp [List.filter_cons, hcond]

/-- Witness for C6's boundary clause: an expense dated exactly at the
budget start contributes nothing. -/
theorem calculate_spent_spec_witness :
    ((DateTime.mk 2024 5 1 0 0 0 0 : DateTime) = mkDate 2024 5 1 ∨
        (DateTime.mk 2024 5 1 0 0 0 0 : DateTime) = mkDate 2024 5 2) ∧
      calculate_spent
        { start := mkDate 2024 5 1, end_ := mkDate 2024 5 2 }
        [{ cost := 146, expense_date := DateTime.mk 2024 5 1 0 0 0 0,
           added_date := DateTime.mk 2024 5 1 0 0 0 0 }]
      = calculate_spent { start := mkDate 2024 5 1, end_ := mkDate 2024 5 2 } [] :=
  ⟨Or.inl (by decide),
    calculate_spent_spec.2
      { start := mkDate 2024 5 1, end_ := mkDate 2024 5 2 }
      { cost := 146, expense_date := DateTime.mk 2024 5 1 0 0 0 0,
        added_date := DateTime.mk 2024 5 1 0 0 0 0 }
      [] (Or.inl (by decide))⟩

/-! ## The cost string parser (`EntriesConverter._cost_str_to_int`) -/

/-- Recogniser for `re.fullmatch(r'(\d+)([,\.]\d\d?)?', s)`: one or more
digits, optionally followed by `,` or `.` and one or two digits.  Since
the optional group starts with a non-digit, the greedy `\d+` consumes
exactly the leading digit run and the match is unambiguous. -/
def costMatch (s : List Char) : Bool :=
  let ds := s.takeWhile Char.isDigit
  let rest := s.dropWhile Char.isDigit
  (!ds.isEmpty) &&
    match rest with
    | [] => true
    | c :: tail =>
      (c == ',' || c == '.') &&
        match tail with
        | [d] => d.isDigit
        | [d1, d2] => d1.isDigit && d2.isDigit
        | _ => false

/-- Numeric value of a digit character. -/
def digitVal (c : Char) : Int := (c.toNat : Int) - 48

/-- Python `int()` on a digit string. -/
def digitsVal (l : List Char) : Int :=
  l.foldl (fun a c => a * 10 + digitVal c) 0

/-- Python `str.find('.')`: index of the first `'.'`, `-1` when absent. -/
def findDot : List Char → Int
  | [] => -1
  | c :: rest =>
    if c == '.' then 0
    else
      let r := findDot rest
      if r = -1 then -1 else r + 1

/-- `EntriesConverter._cost_str_to_int` on the character list of the
input string; `none` models the raised `ViewError`. -/
def cost_str_to_int_chars (s : List Char) : Option Int :=
  if costMatch s then
    let s1 := s.map fun c => if c == ',' then '.' else c
    let pos := findDot s1
    let multiplier : Int := 100
    let multiplier := if pos > 0 ∧ pos = (s1.length : Int) - 2 then 10 else multiplier
    let multiplier := if pos > 0 ∧ pos = (s1.length : Int) - 3 then 1 else multiplier
    let s2 := s1.filter fun c => !(c == '.')
    some (digitsVal s2 * multiplier)
  else none

/-- `EntriesConverter._cost_str_to_int`. -/
def cost_str_to_int (s : String) : Option Int :=
  cost_str_to_int_chars s.data

/-- The language described by the spec: digits, optionally followed by a
separator `,` or `.` and one or two digits. -/
def CostGrammar (s : List Char) : Prop :=
  ∃ ds : List Char, ds ≠ [] ∧ (∀ c ∈ ds, c.isDigit = true) ∧
    (s = ds ∨
      (∃ sep d1, (sep = ',' ∨ sep = '.') ∧ d1.isDigit = true ∧
        s = ds ++ [sep, d1]) ∨
      (∃ sep d1 d2, (sep = ',' ∨ sep = '.') ∧ d1.isDigit = true ∧
        d2.isDigit = true ∧ s = ds ++ [sep, d1, d2]))

theorem takeWhile_all_append {p : Char → Bool} :
    ∀ (ds tail : List Char), (∀ c ∈ ds, p c = true) →
      (∀ c, tail.head? = some c → p c = false) →
      (ds ++ tail).takeWhile p = ds ∧ (ds ++ tail).dropWhile p = tail := by
  intro ds
  induction ds with
  | nil =>
    intro tail _ hhd
    cases tail with
    | nil => simp
    | cons c rest =>
      have := hhd c rfl
      simp [List.takeWhile, List.dropWhile, this]
  | cons d ds ih =>
    intro tail hall hhd
    have hd : p d = true := hall d (by simp)
    have hrec := ih tail (fun c hc => hall c (by simp [hc])) hhd
    simp [List.takeWhile, List.dropWhile, hd, hrec.1, hrec.2]

theorem findDot_no_dot :
    ∀ l : List Char, (∀ c ∈ l, (c == '.') = false) → findDot l = -1 := by
  intro l
  induction l with
  | nil => intro _; rfl
  | cons c rest ih =>
    intro hall
    have hc := hall c (by simp)
    have hr := ih (fun a ha => hall a (by simp [ha]))
    simp [findDot, hc, hr]

theorem findDot_append_dot :
    ∀ (ds rest : List Char), (∀ c ∈ ds, (c == '.') = false) →
      findDot (ds ++ '.' :: rest) = (ds.length : Int) := by
  intro ds
  induction ds with
  | nil => intro rest _; simp [findDot]
  | cons c l ih =>
    intro rest hall
    have hc := hall c (by simp)
    have hr := ih rest (fun a ha => hall a (by simp [ha]))
    have hlen : (0 : Int) ≤ (l.length : Int) := by positivity
    simp [findDot, hc, hr]
    try omega

theorem digitsVal_append_one (ds : List Char) (d : Char) :
    digitsVal (ds ++ [d]) = digitsVal ds * 10 + digitVal d := by
  unfold digitsVal
  rw [List.foldl_append]
  rfl

theorem digit_not_comma {c : Char} (h : c.isDigit = true) : (c == ',') = false := by
  by_cases hc : c = ','
  · subst hc
    exact absurd h (by decide)
  · simp [beq_eq_false_iff_ne, hc]

theorem digit_not_dot {c : Char} (h : c.isDigit = true) : (c == '.') = false := by
  by_cases hc : c = '.'
  · subst hc
    exact absurd h (by decide)
  · simp [beq_eq_false_iff_ne, hc]

theorem sep_not_digit {sep : Char} (h : sep = ',' ∨ sep = '.') :
    sep.isDigit = false := by
  rcases h with h | h <;> subst h <;> decide

/-- The comma-to-dot replacement fixes digit characters. -/
theorem map_comma_digits {l : List Char} (h : ∀ c ∈ l, c.isDigit = true) :
    (l.map fun c => if c == ',' then '.' else c) = l := by
  induction l with
  | nil => rfl
  | cons c rest ih =>
    have hc := digit_not_comma (h c (by simp))
    simp only [List.map_cons, hc]
    rw [if_neg (by simp_all), ih (fun a ha => h a (by simp [ha]))]

/-- Digit strings pass the dot-removal filter unchanged. -/
theorem filter_dot_digits {l : List Char} (h : ∀ c ∈ l, c.isDigit = true) :
    (l.filter fun c => !(c == '.')) = l := by
  rw [List.filter_eq_self]
  intro a ha
  rw [digit_not_dot (h a ha)]
  rfl

theorem sep_eq_true {sep : Char} (h : sep = ',' ∨ sep = '.') :
    (sep == ',' || sep == '.') = true := by
  rcases h with h | h <;> subst h <;> decide

theorem costMatch_shape1 {ds : List Char} (hne : ds ≠ [])
    (hd : ∀ c ∈ ds, c.isDigit = true) : costMatch ds = true := by
  have hsplit := takeWhile_all_append (p := Char.isDigit) ds [] hd
    (fun c hc => by simp at hc)
  rw [List.append_nil] at hsplit
  unfold costMatch
  rw [hsplit.1, hsplit.2]
  cases ds with
  | nil => exact absurd rfl hne
  | cons a l => rfl

theorem costMatch_shape2 {ds : List Char} {sep d1 : Char} (hne : ds ≠ [])
    (hd : ∀ c ∈ ds, c.isDigit = true) (hsep : sep = ',' ∨ sep = '.')
    (h1 : d1.isDigit = true) : costMatch (ds ++ [sep, d1]) = true := by
  have hsplit := takeWhile_all_append (p := Char.isDigit) ds [sep, d1] hd
    (fun c hc => by
      simp at hc
      exact hc ▸ sep_not_digit hsep)
  unfold costMatch
  rw [hsplit.1, hsplit.2]
  cases ds with
  | nil => exact absurd rfl hne
  | cons a l =>
    simp only [List.isEmpty_cons, Bool.not_false, Bool.true_and]
    rw [sep_eq_true hsep]
    simpa using h1

theorem costMatch_shape3 {ds : List Char} {sep d1 d2 : Char} (hne : ds ≠ [])
    (hd : ∀ c ∈ ds, c.isDigit = true) (hsep : sep = ',' ∨ sep = '.')
    (h1 : d1.isDigit = true) (h2 : d2.isDigit = true) :
    costMatch (ds ++ [sep, d1, d2]) = true := by
  have hsplit := takeWhile_all_append (p := Char.isDigit) ds [sep, d1, d2] hd
    (fun c hc => by
      simp at hc
      exact hc ▸ sep_not_digit hsep)
  unfold costMatch
  rw [hsplit.1, hsplit.2]
  cases ds with
  | nil => exact absurd rfl hne
  | cons a l =>
    simp only [List.isEmpty_cons, Bool.not_false, Bool.true_and]
    rw [sep_eq_true hsep]
    simp [h1, h2]

theorem costMatch_grammar {s : List Char} (h : costMatch s = true) :
    CostGrammar s := by
  unfold costMatch at h
  dsimp only at h
  rw [Bool.and_eq_true] at h
  obtain ⟨hne, hrest⟩ := h
  have hs := (List.takeWhile_append_dropWhile (p := Char.isDigit) (l := s)).symm
  have hdig : ∀ c ∈ s.takeWhile Char.isDigit, c.isDigit = true :=
    fun c hc => List.mem_takeWhile_imp hc
  have hne' : s.takeWhile Char.isDigit ≠ [] := by
    intro hc
    rw [hc] at hne
    simp at hne
  refine ⟨s.takeWhile Char.isDigit, hne', hdig, ?_⟩
  cases hdp : s.dropWhile Char.isDigit with
  | nil =>
    left
    rw [hdp, List.append_nil] at hs
    exact hs
  | cons c tail =>
    rw [hdp] at hrest hs
    rw [Bool.and_eq_true] at hrest
    obtain ⟨hcsep, htail⟩ := hrest
    have hsep : c = ',' ∨ c = '.' := by
      rw [Bool.or_eq_true, beq_iff_eq, beq_iff_eq] at hcsep
      exact hcsep
    rcases tail with _ | ⟨d1, _ | ⟨d2, _ | _⟩⟩
    · simp at htail
    · right; left
      exact ⟨c, d1, hsep, by simpa using htail, hs⟩
    · right; right
      rw [Bool.and_eq_true] at htail
      exact ⟨c, d1, d2, hsep, htail.1, htail.2, hs⟩
    · simp at htail

theorem map_comma_shape {ds : List Char} {sep : Char} (tail : List Char)
    (hd : ∀ c ∈ ds, c.isDigit = true) (hsep : sep = ',' ∨ sep = '.')
    (htail : ∀ c ∈ tail, c.isDigit = true) :
    ((ds ++ sep :: tail).map fun c => if c == ',' then '.' else c) =
      ds ++ '.' :: tail := by
  rw [List.map_append, map_comma_digits hd, List.map_cons,
    map_comma_digits htail]
  rcases hsep with h | h <;> subst h <;> rfl

theorem cost_val_shape1 {ds : List Char} (hne : ds ≠ [])
    (hd : ∀ c ∈ ds, c.isDigit = true) :
    cost_str_to_int_chars ds = some (digitsVal ds * 100) := by
  unfold cost_str_to_int_chars
  rw [if_pos (costMatch_shape1 hne hd)]
  dsimp only
  rw [map_comma_digits hd, findDot_no_dot ds (fun c hc => digit_not_dot (hd c hc)),
    filter_dot_digits hd]
  norm_num

theorem cost_val_shape2 {ds : List Char} {sep d1 : Char} (hne : ds ≠ [])
    (hd : ∀ c ∈ ds, c.isDigit = true) (hsep : sep = ',' ∨ sep = '.')
    (h1 : d1.isDigit = true) :
    cost_str_to_int_chars (ds ++ [sep, d1]) =
      some (digitsVal ds * 100 + digitVal d1 * 10) := by
  unfold cost_str_to_int_chars
  rw [if_pos (costMatch_shape2 hne hd hsep h1)]
  dsimp only
  rw [show ([sep, d1] : List Char) = sep :: [d1] from rfl,
    map_comma_shape [d1] hd hsep (by simpa using h1),
    findDot_append_dot ds [d1] (fun c hc => digit_not_dot (hd c hc))]
  have hlen : ((ds ++ '.' :: [d1]).length : Int) = (ds.length : Int) + 2 := by
    simp
  rw [hlen]
  have hpos : (0 : Int) < (ds.length : Int) := by
    cases ds with
    | nil => exact absurd rfl hne
    | cons a l => simp
  rw [if_neg (by
    rintro ⟨-, hc⟩
    omega), if_pos ⟨hpos, by ring⟩]
  rw [List.filter_append, filter_dot_digits hd]
  have : (('.' :: [d1]).filter fun c => !(c == '.')) = [d1] := by
    simp [List.filter, digit_not_dot h1]
  rw [this, digitsVal_append_one]
  refine congrArg some ?_
  ring

theorem digitsVal_append_two (ds : List Char) (d1 d2 : Char) :
    digitsVal (ds ++ [d1, d2]) =
      (digitsVal ds * 10 + digitVal d1) * 10 + digitVal d2 := by
  unfold digitsVal
  rw [List.foldl_append]
  rfl

theorem cost_val_shape3 {ds : List Char} {sep d1 d2 : Char} (hne : ds ≠ [])
    (hd : ∀ c ∈ ds, c.isDigit = true) (hsep : sep = ',' ∨ sep = '.')
    (h1 : d1.isDigit = true) (h2 : d2.isDigit = true) :
    cost_str_to_int_chars (ds ++ [sep, d1, d2]) =
      some (digitsVal ds * 100 + digitVal d1 * 10 + digitVal d2) := by
  unfold cost_str_to_int_chars
  rw [if_pos (costMatch_shape3 hne hd hsep h1 h2)]
  dsimp only
  rw [show ([sep, d1, d2] : List Char) = sep :: [d1, d2] from rfl,
    map_comma_shape [d1, d2] hd hsep (by
      intro c hc
      simp at hc
      rcases hc with h | h <;> subst h <;> assumption),
    findDot_append_dot ds [d1, d2] (fun c hc => digit_not_dot (hd c hc))]
  have hlen : ((ds ++ '.' :: [d1, d2]).length : Int) = (ds.length : Int) + 3 := by
    simp
  rw [hlen]
  have hpos : (0 : Int) < (ds.length : Int) := by
    cases ds with
    | nil => exact absurd rfl hne
    | cons a l => simp
  rw [if_pos ⟨hpos, by ring⟩]
  rw [List.filter_append, filter_dot_digits hd]
  have : (('.' :: [d1, d2]).filter fun c => !(c == '.')) = [d1, d2] := by
    simp [List.filter, digit_not_dot h1, digit_not_dot h2]
  rw [this, digitsVal_append_two]
  refine congrArg some ?_
  ring

/-- C7: the cost parser accepts exactly the strings matched by
"digits, optionally a `,` or `.` separator and one or two digits", and
returns the value in hundredths of a currency unit; the concrete cases of
the spec. -/
theorem cost_str_to_int_spec :
    (∀ s : List Char, (cost_str_to_int_chars s).isSome = true ↔ CostGrammar s) ∧
    (∀ ds : List Char, ds ≠ [] → (∀ c ∈ ds, c.isDigit = true) →
      cost_str_to_int_chars ds = some (digitsVal ds * 100)) ∧
    (∀ (ds : List Char) (sep d1 : Char), ds ≠ [] →
      (∀ c ∈ ds, c.isDigit = true) → (sep = ',' ∨ sep = '.') →
      d1.isDigit = true →
      cost_str_to_int_chars (ds ++ [sep, d1]) =
        some (digitsVal ds * 100 + digitVal d1 * 10)) ∧
    (∀ (ds : List Char) (sep d1 d2 : Char), ds ≠ [] →
      (∀ c ∈ ds, c.isDigit = true) → (sep = ',' ∨ sep = '.') →
      d1.isDigit = true → d2.isDigit = true →
      cost_str_to_int_chars (ds ++ [sep, d1, d2]) =
        some (digitsVal ds * 100 + digitVal d1 * 10 + digitVal d2)) ∧
    cost_str_to_int "1" = some 100 ∧
    cost_str_to_int "1.0" = some 100 ∧
    cost_str_to_int "1,01" = some 101 ∧
    cost_str_to_int "1.001" = none ∧
    cost_str_to_int "-1.0" = none := by
  refine ⟨?_, fun ds h1 h2 => cost_val_shape1 h1 h2,
    fun ds sep d1 h1 h2 h3 h4 => cost_val_shape2 h1 h2 h3 h4,
    fun ds sep d1 d2 h1 h2 h3 h4 h5 => cost_val_shape3 h1 h2 h3 h4 h5,
    by decide, by decide, by decide, by decide, by decide⟩
  intro s
  constructor
  · intro hsome
    apply costMatch_grammar
    by_contra hcm
    rw [Bool.not_eq_true] at hcm
    unfold cost_str_to_int_chars at hsome
    rw [if_neg (by rw [hcm]; exact Bool.false_ne_true)] at hsome
    simp at hsome
  · rintro ⟨ds, hne, hd, hshape⟩
    rcases hshape with rfl | ⟨sep, d1, hsep, h1, rfl⟩ | ⟨sep, d1, d2, hsep, h1, h2, rfl⟩
    · rw [cost_val_shape1 hne hd]
      rfl
    · rw [cost_val_shape2 hne hd hsep h1]
      rfl
    · rw [cost_val_shape3 hne hd hsep h1 h2]
      rfl

/-- Witness for C7's value clauses: `"1.5"` parses to 150 hundredths. -/
theorem cost_str_to_int_spec_witness :
    ((['1'] : List Char) ≠ [] ∧ (∀ c ∈ (['1'] : List Char), c.isDigit = true) ∧
        (('.' : Char) = ',' ∨ ('.' : Char) = '.') ∧ ('5' : Char).isDigit = true) ∧
      cost_str_to_int_chars ['1', '.', '5'] = some 150 :=
  ⟨⟨by decide, by decide, Or.inr rfl, by decide⟩,
    by
      have h := cost_str_to_int_spec.2.2.1 ['1'] '.' '5' (by decide) (by decide)
        (Or.inr rfl) (by decide)
      rw [show (['1'] ++ ['.', '5'] : List Char) = ['1', '.', '5'] from rfl] at h
      rw [h]
      decide⟩

/-! ## Repositories

A repository stores records of some entity type.  A record is modelled as
a pair `(pk, fields)` where `fields : α` bundles every non-`pk` attribute;
a repository state is the list of stored rows in insertion (rowid) order.
A `where`-filter is abstracted as a boolean predicate on the stored pk and
fields (the SQL conjunction of column equalities, or the attribute
comparisons of the in-memory store).

`SqliteRepository` (from `repository/sqlite_repository.py`):
`__init__` pops `pk` from `_fields`, so `SELECT` statements fetch only the
non-pk columns and `get`/`get_all` rebuild objects through `cls()` whose
`pk` keeps its default value `0`.  `add` requires `pk == 0` and assigns
`cur.lastrowid` (one more than the largest rowid in use, 1 for an empty
table); `update` raises `ValueError` and `delete` raises `KeyError` when
no row matches. -/

/-- The Python exception kinds raised by the repositories. -/
inductive RepoErr where
  | valueErr
  | keyErr
deriving DecidableEq, Repr

/-- `cur.lastrowid` policy of sqlite for an `INTEGER PRIMARY KEY` table:
one more than the largest rowid in use (`sqlMaxPk + 1`), 1 when empty. -/
def sqlMaxPk {α : Type} (rows : List (Int × α)) : Int :=
  rows.foldl (fun a r => max a r.1) 0

/-- `SqliteRepository.add`: returns the assigned id, the mutated object
(`obj.pk = cur.lastrowid`), and the new table state. -/
def sqlite_add {α : Type} (rows : List (Int × α)) (obj : Int × α) :
    Except RepoErr (Int × (Int × α) × List (Int × α)) :=
  if obj.1 ≠ 0 then .error .valueErr
  else
    let pk := sqlMaxPk rows + 1
    .ok (pk, (pk, obj.2), rows ++ [(pk, obj.2)])

/-- `SqliteRepository.get`: `SELECT` of the non-pk columns `WHERE pk=...`;
a found row is rebuilt via `cls()`, so the returned record's pk is the
class default `0`. -/
def sqlite_get {α : Type} [DecidableEq α] (rows : List (Int × α)) (pk : Int) :
    Option (Int × α) :=
  match rows.filter (fun r => r.1 = pk) with
  | [r] => some (0, r.2)
  | _ => none

/-- `SqliteRepository.get_all`: all rows matching the filter, rebuilt with
default pk `0`. -/
def sqlite_get_all {α : Type} (rows : List (Int × α))
    (flt : Option (Int → α → Bool)) : List (Int × α) :=
  (match flt with
   | none => rows
   | some p => rows.filter (fun r => p r.1 r.2)).map
    (fun (r : Int × α) => ((0 : Int), r.2))

/-- `SqliteRepository.update`: `UPDATE ... WHERE pk = obj.pk`; raises
`ValueError` when `cur.rowcount` is 0. -/
def sqlite_update {α : Type} (rows : List (Int × α)) (obj : Int × α) :
    Except RepoErr (List (Int × α)) :=
  if rows.countP (fun r => r.1 = obj.1) = 0 then .error .valueErr
  else .ok (rows.map (fun r => if r.1 = obj.1 then (r.1, obj.2) else r))

/-- `SqliteRepository.delete`: `DELETE ... WHERE pk = ...`; raises
`KeyError` when `cur.rowcount` is 0. -/
def sqlite_delete {α : Type} (rows : List (Int × α)) (pk : Int) :
    Except RepoErr (List (Int × α)) :=
  if rows.countP (fun r => r.1 = pk) = 0 then .error .keyErr
  else .ok (rows.filter (fun r => ¬(r.1 = pk)))

theorem sqlMaxPk_spec {α : Type} (rows : List (Int × α)) :
    0 ≤ sqlMaxPk rows ∧ ∀ r ∈ rows, r.1 ≤ sqlMaxPk rows := by
  have key : ∀ (l : List (Int × α)) (a : Int),
      a ≤ l.foldl (fun (a : Int) (r : Int × α) => max a r.1) a ∧
        ∀ r ∈ l, r.1 ≤ l.foldl (fun (a : Int) (r : Int × α) => max a r.1) a := by
    intro l
    induction l with
    | nil => intro a; simp
    | cons x xs ih =>
      intro a
      have hx := ih (max a x.1)
      constructor
      · simp only [List.foldl_cons]
        exact le_trans (le_max_left a x.1) hx.1
      · intro r hr
        rcases List.mem_cons.mp hr with rfl | hr'
        · simp only [List.foldl_cons]
          exact le_trans (le_max_right a r.1) hx.1
        · exact hx.2 r hr'
  exact key rows 0

/-- C2: the persistence identity rule for the sqlite-backed store.
`add` on a record with `pk = 0` assigns a strictly positive id larger than
every stored id (hence fresh), writes it into the record and returns it;
`add` on a nonzero pk raises; `update` and `delete` on an absent pk raise;
`get` of an absent pk returns `None` and never raises. -/
theorem sqlite_repository_contract {α : Type} [DecidableEq α]
    (rows : List (Int × α)) (obj : Int × α) (pk : Int) :
    (obj.1 = 0 →
      sqlite_add rows obj =
        .ok (sqlMaxPk rows + 1, (sqlMaxPk rows + 1, obj.2),
          rows ++ [(sqlMaxPk rows + 1, obj.2)]) ∧
      0 < sqlMaxPk rows + 1 ∧
      ∀ r ∈ rows, r.1 < sqlMaxPk rows + 1) ∧
    (obj.1 ≠ 0 → sqlite_add rows obj = .error .valueErr) ∧
    ((∀ r ∈ rows, r.1 ≠ obj.1) → sqlite_update rows obj = .error .valueErr) ∧
    ((∀ r ∈ rows, r.1 ≠ pk) → sqlite_delete rows pk = .error .keyErr) ∧
    ((∀ r ∈ rows, r.1 ≠ pk) → sqlite_get rows pk = none) := by
  have hmax := sqlMaxPk_spec rows
  refine ⟨?_, ?_, ?_, ?_, ?_⟩
  · intro h0
    refine ⟨?_, by omega, fun r hr => by have := hmax.2 r hr; omega⟩
    unfold sqlite_add
    rw [if_neg (by simp [h0])]
  · intro h0
    unfold sqlite_add
    rw [if_pos h0]
  · intro habs
    unfold sqlite_update
    rw [if_pos (List.countP_eq_zero.mpr (by
      intro r hr
      simpa using habs r hr))]
  · intro habs
    unfold sqlite_delete
    rw [if_pos (List.countP_eq_zero.mpr (by
      intro r hr
      simpa using habs r hr))]
  · intro habs
    unfold sqlite_get
    rw [List.filter_eq_nil.mpr (by
      intro r hr
      simpa using habs r hr)]

/-- Witness for C2 on a one-row store of integer records. -/
theorem sqlite_repository_contract_witness :
    (((0 : Int), (10 : Int)).1 = 0 ∧ (∀ r ∈ [((1 : Int), (5 : Int))], r.1 ≠ 3)) ∧
      sqlite_add [((1 : Int), (5 : Int))] (0, 10) = .ok (2, (2, 10), [(1, 5), (2, 10)]) ∧
      sqlite_get [((1 : Int), (5 : Int))] 3 = none ∧
      sqlite_delete [((1 : Int), (5 : Int))] 3 = .error .keyErr :=
  ⟨⟨rfl, by decide⟩,
    by
      have h := (sqlite_repository_contract [((1 : Int), (5 : Int))] (0, 10) 3).1 rfl
      rw [h.1]
      rfl,
    (sqlite_repository_contract [((1 : Int), (5 : Int))] (0, 10) 3).2.2.2.2 (by decide),
    (sqlite_repository_contract [((1 : Int), (5 : Int))] (0, 10) 3).2.2.2.1 (by decide)⟩

/-- Modelled from the spec: `MemoryRepository`
(`bookkeeper/repository/memory_repository.py` is not part of the sources,
only its importers are).  Per §4.1 the volatile store keeps records in
process memory, `add` requires `pk == 0`, assigns a fresh positive id
(chosen as max-in-use + 1, the choice consistent with the spec's statement
that the two backends behave identically), writes it into the record and
stores the record; `get` returns the stored record or an explicit
"not found"; `update`/`delete` of an absent pk are errors. -/
def mem_add {α : Type} (rows : List (Int × α)) (obj : Int × α) :
    Except RepoErr (Int × (Int × α) × List (Int × α)) :=
  if obj.1 ≠ 0 then .error .valueErr
  else
    let pk := sqlMaxPk rows + 1
    .ok (pk, (pk, obj.2), rows ++ [(pk, obj.2)])

/-- Modelled from the spec: `MemoryRepository.get` — returns the stored
record itself (whose pk field holds its assigned id), or `None`. -/
def mem_get {α : Type} [DecidableEq α] (rows : List (Int × α)) (pk : Int) :
    Option (Int × α) :=
  match rows.filter (fun r => r.1 = pk) with
  | [r] => some r
  | _ => none

/-- C8: the two backends do NOT return equal results.  After the same
`add` on the same empty store, `get` of the assigned id returns the record
with its id in the memory store but a record with `pk = 0` in the sqlite
store (`SqliteRepository` never selects the pk column and leaves the
`cls()` default).  Evaluated at the failing input: add `(pk=0, fields=146)`
to an empty store, then get id 1. -/
theorem backend_get_divergence :
    mem_add ([] : List (Int × Int)) (0, 146) = .ok (1, (1, 146), [(1, 146)]) ∧
      sqlite_add ([] : List (Int × Int)) (0, 146) = .ok (1, (1, 146), [(1, 146)]) ∧
      mem_get [((1 : Int), (146 : Int))] 1 = some (1, 146) ∧
      sqlite_get [((1 : Int), (146 : Int))] 1 = some (0, 146) ∧
      some ((1 : Int), (146 : Int)) ≠ some ((0 : Int), (146 : Int)) :=
  ⟨rfl, rfl, rfl, rfl, by decide⟩

/-! ## The category tree (`bookkeeper/models/category.py`)

`get_subcategories` and `get_all_categories_sorted` build a
parent-to-children adjacency from `repo.get_all()` (a `defaultdict`
grouping that preserves store order, modelled by `List.filter`) and run
the recursive generator `_get_children`.  The Python recursion terminates
exactly when the parent graph is acyclic; the embedding uses explicit
fuel, and the callers pass `cats.length + 1`, which is enough fuel for
any acyclic store (a descent path visits distinct categories). -/

/-- `models/category.py` `Category` dataclass. -/
structure Category where
  name : String := "Category"
  parent : Option Int := none
  pk : Int := 0
deriving DecidableEq, Repr

/-- The grouping `subcats[cat.parent].append(cat)`: children of `root` in
store order. -/
def childrenOf (cats : List Category) (root : Option Int) : List Category :=
  cats.filter (fun c => c.parent = root)

/-- `Category._get_children`: depth-first pre-order walk of the adjacency
from `root` (yield each child, then recurse into it), with fuel. -/
def get_children (graph : Option Int → List Category) :
    Nat → Option Int → List Category
  | 0, _ => []
  | fuel + 1, root =>
    (graph root).bind (fun c => c :: get_children graph fuel (some c.pk))

/-- `Category.get_subcategories`: all transitive subcategories of `self`. -/
def get_subcategories (cat : Category) (cats : List Category) : List Category :=
  get_children (childrenOf cats) (cats.length + 1) (some cat.pk)

/-- `Category.get_all_categories_sorted`: the walk rooted at the virtual
`None` parent. -/
def get_all_categories_sorted (cats : List Category) : List Category :=
  get_children (childrenOf cats) (cats.length + 1) none

/-- The stored categories form a forest: distinct pks, every non-null
parent present, and parent links acyclic (witnessed by a rank function
that strictly decreases from child to parent). -/
def Forest (cats : List Category) : Prop :=
  (cats.map Category.pk).Nodup ∧
    (∀ c ∈ cats, ∀ p : Int, c.parent = some p → ∃ q ∈ cats, q.pk = p) ∧
    (∃ rank : Int → Nat, ∀ c ∈ cats, ∀ p : Int, c.parent = some p →
      rank p < rank c.pk)

/-- `Desc cats root c`: `c` lies in the subtree below the parent pointer
`root` (follows parent links from `c` upward to `root`). -/
inductive Desc (cats : List Category) : Option Int → Category → Prop where
  | base : ∀ {root : Option Int} {c : Category},
      c ∈ cats → c.parent = root → Desc cats root c
  | step : ∀ {root : Option Int} {c q : Category},
      c ∈ cats → q ∈ cats → c.parent = some q.pk →
      Desc cats root q → Desc cats root c

theorem Desc.mem {cats : List Category} {root : Option Int} {c : Category}
    (h : Desc cats root c) : c ∈ cats := by
  cases h with
  | base hc _ => exact hc
  | step hc _ _ _ => exact hc

/-- With a child-over-parent rank, a descendant of pointer `some p` has
rank strictly greater than `rank p`. -/
theorem Desc.rank_lt {cats : List Category} {rank : Int → Nat}
    (hrank : ∀ c ∈ cats, ∀ p : Int, c.parent = some p → rank p < rank c.pk) :
    ∀ {p : Int} {c : Category}, Desc cats (some p) c → rank p < rank c.pk := by
  intro p c h
  induction h with
  | base hc hpar => exact hrank _ hc _ hpar
  | step hc hq hpar _ ih =>
    exact lt_trans ih (hrank _ hc _ hpar)

/-- Distinct pks make the pk-to-record map injective on the store. -/
theorem pk_inj {cats : List Category}
    (hnd : (cats.map Category.pk).Nodup) :
    ∀ q1 ∈ cats, ∀ q2 ∈ cats, q1.pk = q2.pk → q1 = q2 := by
  intro q1 h1 q2 h2 heq
  exact List.inj_on_of_nodup_map hnd h1 h2 heq

/-- Top-down inversion: a descendant of `root` is a direct child, or a
descendant of some direct child of `root`. -/
theorem Desc.cases_down {cats : List Category} {root : Option Int}
    {x : Category} (h : Desc cats root x) :
    x.parent = root ∨
      ∃ q ∈ cats, q.parent = root ∧ Desc cats (some q.pk) x := by
  induction h with
  | base _ hpar => exact Or.inl hpar
  | step hc hq hpar hdq ih =>
    rcases ih with hq_direct | ⟨q', hq', hq'par, hdq'⟩
    · exact Or.inr ⟨_, hq, hq_direct, Desc.base hc hpar⟩
    · exact Or.inr ⟨q', hq', hq'par, Desc.step hc hq hpar hdq'⟩

/-- A descendant of a direct child of `root` is a descendant of `root`. -/
theorem Desc.extend {cats : List Category} {root : Option Int}
    {q : Category} (hq : q ∈ cats) (hqpar : q.parent = root) :
    ∀ {x : Category}, Desc cats (some q.pk) x → Desc cats root x := by
  intro x h
  induction h with
  | base hc hpar => exact Desc.step hc hq hpar (Desc.base hq hqpar)
  | step hc hw hpar _ ih => exact Desc.step hc hw hpar ih

/-- No direct child of `root` lies in the subtree of another direct child
of `root` (in a forest). -/
theorem no_desc_of_child {cats : List Category} {rank : Int → Nat}
    (hrank : ∀ c ∈ cats, ∀ p : Int, c.parent = some p → rank p < rank c.pk)
    {root : Option Int} {q1 q2 : Category}
    (hq1 : q1 ∈ cats) (hq2 : q2 ∈ cats)
    (hq1par : q1.parent = root) (hq2par : q2.parent = root) :
    ¬ Desc cats (some q2.pk) q1 := by
  intro h
  cases h with
  | base hc hpar =>
    have hroot : root = some q2.pk := hq1par.symm.trans hpar
    have hself : q2.parent = some q2.pk := hq2par.trans hroot
    exact lt_irrefl _ (hrank q2 hq2 q2.pk hself)
  | step hc hw hpar hdw =>
    rename_i w
    have hroot : root = some w.pk := hq1par.symm.trans hpar
    have h1 : rank w.pk < rank q2.pk :=
      hrank q2 hq2 w.pk (hq2par.trans hroot)
    have h2 : rank q2.pk < rank w.pk := Desc.rank_lt hrank hdw
    omega

/-- In a forest, a category can lie in the subtree of at most one direct
child of a given parent pointer. -/
theorem desc_branch_unique {cats : List Category} {rank : Int → Nat}
    (hnd : (cats.map Category.pk).Nodup)
    (hrank : ∀ c ∈ cats, ∀ p : Int, c.parent = some p → rank p < rank c.pk)
    {root : Option Int} {q1 q2 : Category}
    (hq1 : q1 ∈ cats) (hq2 : q2 ∈ cats)
    (hq1par : q1.parent = root) (hq2par : q2.parent = root) :
    ∀ {x : Category}, Desc cats (some q1.pk) x → Desc cats (some q2.pk) x →
      q1 = q2 := by
  intro x h1
  induction h1 with
  | base hc hpar =>
    intro h2
    cases h2 with
    | base hc2 hpar2 =>
      have : q1.pk = q2.pk := by
        rw [hpar] at hpar2
        exact Option.some_injective _ hpar2
      exact pk_inj hnd q1 hq1 q2 hq2 this
    | step hc2 hw hpar2 hdw =>
      rename_i w
      have hw_eq : w = q1 := by
        apply pk_inj hnd w hw q1 hq1
        rw [hpar] at hpar2
        exact (Option.some_injective _ hpar2).symm
      rw [hw_eq] at hdw
      exact absurd hdw (no_desc_of_child hrank hq1 hq2 hq1par hq2par)
  | step hc hw hpar hdw ih =>
    rename_i w
    intro h2
    cases h2 with
    | base hc2 hpar2 =>
      have hw_eq : w = q2 := by
        apply pk_inj hnd w hw q2 hq2
        rw [hpar] at hpar2
        exact Option.some_injective _ hpar2
      rw [hw_eq] at hdw
      exact absurd hdw (no_desc_of_child hrank hq2 hq1 hq2par hq1par)
    | step hc2 hw2 hpar2 hdw2 =>
      rename_i w2
      have hw_eq : w2 = w := by
        apply pk_inj hnd w2 hw2 w hw
        rw [hpar] at hpar2
        exact (Option.some_injective _ hpar2).symm
      rw [hw_eq] at hdw2
      exact ih hdw2

theorem count_bind {α β : Type} [DecidableEq β] (l : List α) (f : α → List β)
    (x : β) :
    (l.bind f).count x = (l.map (fun a => (f a).count x)).sum := by
  induction l with
  | nil => rfl
  | cons a l ih =>
    simp only [List.cons_bind, List.count_append, List.map_cons, List.sum_cons, ih]

theorem sum_map_add {α : Type} (l : List α) (g h : α → Nat) :
    (l.map (fun a => g a + h a)).sum = (l.map g).sum + (l.map h).sum := by
  induction l with
  | nil => rfl
  | cons a l ih =>
    simp only [List.map_cons, List.sum_cons, ih]
    omega

theorem sum_map_zero {α : Type} {l : List α} {f : α → Nat}
    (h : ∀ a ∈ l, f a = 0) : (l.map f).sum = 0 := by
  induction l with
  | nil => rfl
  | cons a l ih =>
    simp only [List.map_cons, List.sum_cons, h a (by simp),
      ih (fun a ha => h a (by simp [ha]))]

theorem sum_map_single {α : Type} [DecidableEq α] :
    ∀ (l : List α), l.Nodup → ∀ (f : α → Nat) (q0 : α), q0 ∈ l → f q0 = 1 →
      (∀ q ∈ l, q ≠ q0 → f q = 0) → (l.map f).sum = 1 := by
  intro l
  induction l with
  | nil => intro _ f q0 h; simp at h
  | cons a l ih =>
    intro hnd f q0 hq0 hone hzero
    rcases List.mem_cons.mp hq0 with rfl | hq0'
    · have hz : ∀ q ∈ l, f q = 0 := by
        intro q hq
        have : q ≠ q0 := by
          intro hc
          rw [hc] at hq
          exact (List.nodup_cons.mp hnd).1 hq
        exact hzero q (by simp [hq]) this
      simp only [List.map_cons, List.sum_cons, hone, sum_map_zero hz]
    · have ha : a ≠ q0 := by
        intro hc
        rw [← hc] at hq0'
        exact (List.nodup_cons.mp hnd).1 hq0'
      simp only [List.map_cons, List.sum_cons, hzero a (by simp) ha]
      rw [ih (List.nodup_cons.mp hnd).2 f q0 hq0' hone
        (fun q hq hne => hzero q (by simp [hq]) hne)]

theorem ncard_mem_le (cats : List Category) (P : Category → Prop) :
    Set.ncard {c | c ∈ cats ∧ P c} ≤ cats.length := by
  have hsub : {c | c ∈ cats ∧ P c} ⊆ ↑cats.toFinset := by
    intro c hc
    simp only [Finset.coe_sort_coe, List.coe_toFinset, Set.mem_setOf_eq]
    exact hc.1
  calc Set.ncard {c | c ∈ cats ∧ P c}
      ≤ Set.ncard ↑cats.toFinset :=
        Set.ncard_le_ncard hsub cats.toFinset.finite_toSet
    _ = cats.toFinset.card := Set.ncard_coe_Finset _
    _ ≤ cats.length := cats.toFinset_card_le

theorem ncard_subtree_lt {cats : List Category} {rank : Int → Nat}
    (hrank : ∀ c ∈ cats, ∀ p : Int, c.parent = some p → rank p < rank c.pk)
    {root : Option Int} {q : Category} (hq : q ∈ cats) (hqpar : q.parent = root) :
    Set.ncard {c | c ∈ cats ∧ Desc cats (some q.pk) c} <
      Set.ncard {c | c ∈ cats ∧ Desc cats root c} := by
  apply Set.ncard_lt_ncard
  · constructor
    · intro c hc
      exact ⟨hc.1, Desc.extend hq hqpar hc.2⟩
    · intro hsub
      have hqin : q ∈ {c | c ∈ cats ∧ Desc cats root c} :=
        ⟨hq, Desc.base hq hqpar⟩
      have hqsub := hsub hqin
      have := Desc.rank_lt hrank hqsub.2
      omega
  · exact Set.Finite.subset (cats.finite_toSet)
      (fun c hc => hc.1)

theorem sum_map_beq_count {α : Type} [DecidableEq α] (l : List α) (x : α) :
    (l.map (fun q => if q == x then 1 else 0)).sum = l.count x := by
  induction l with
  | nil => rfl
  | cons a l ih =>
    simp only [List.map_cons, List.sum_cons, List.count_cons, ih]
    exact Nat.add_comm _ _

/-- Each category is yielded by the DFS exactly once if it belongs to the
subtree below `root`, and not at all otherwise (given enough fuel). -/
theorem get_children_count {cats : List Category} {rank : Int → Nat}
    (hnd : (cats.map Category.pk).Nodup)
    (hrank : ∀ c ∈ cats, ∀ p : Int, c.parent = some p → rank p < rank c.pk) :
    ∀ (fuel : Nat) (root : Option Int),
      Set.ncard {c | c ∈ cats ∧ Desc cats root c} < fuel →
      ∀ x : Category,
        (x ∈ cats ∧ Desc cats root x →
          (get_children (childrenOf cats) fuel root).count x = 1) ∧
        (¬(x ∈ cats ∧ Desc cats root x) →
          (get_children (childrenOf cats) fuel root).count x = 0) := by
  intro fuel
  induction fuel with
  | zero => intro root hcard; omega
  | succ fuel ih =>
    intro root hcard x
    have hchild_mem : ∀ q ∈ childrenOf cats root, q ∈ cats ∧ q.parent = root := by
      intro q hq
      have := List.mem_filter.mp hq
      exact ⟨this.1, by simpa using this.2⟩
    have hchild_nodup : (childrenOf cats root).Nodup :=
      (hnd.of_map).filter _
    have hcard' : ∀ q ∈ childrenOf cats root,
        Set.ncard {c | c ∈ cats ∧ Desc cats (some q.pk) c} < fuel := by
      intro q hq
      obtain ⟨hqc, hqpar⟩ := hchild_mem q hq
      have := ncard_subtree_lt hrank hqc hqpar
      omega
    have hsum : (get_children (childrenOf cats) (fuel + 1) root).count x =
        ((childrenOf cats root).map
          (fun q => (get_children (childrenOf cats) fuel (some q.pk)).count x)).sum
        + (childrenOf cats root).count x := by
      simp only [get_children]
      rw [count_bind]
      have heach : ∀ q : Category,
          ((q :: get_children (childrenOf cats) fuel (some q.pk)).count x) =
          (get_children (childrenOf cats) fuel (some q.pk)).count x +
            (if q == x then 1 else 0) := by
        intro q
        rw [List.count_cons]
      calc ((childrenOf cats root).map
            (fun q => ((q :: get_children (childrenOf cats) fuel (some q.pk)).count x))).sum
          = ((childrenOf cats root).map
            (fun q => (get_children (childrenOf cats) fuel (some q.pk)).count x +
              (if q == x then 1 else 0))).sum := by
            congr 1
            exact List.map_congr_left (fun q _ => heach q)
        _ = ((childrenOf cats root).map
            (fun q => (get_children (childrenOf cats) fuel (some q.pk)).count x)).sum +
            ((childrenOf cats root).map (fun q => if q == x then 1 else 0)).sum :=
            sum_map_add _ _ _
        _ = _ := by rw [sum_map_beq_count]
    refine ⟨?_, ?_⟩
    · rintro ⟨hx, hdesc⟩
      rcases Desc.cases_down hdesc with hdir | ⟨q0, hq0, hq0par, hq0d⟩
      · have hxchild : x ∈ childrenOf cats root := by
          rw [childrenOf, List.mem_filter]
          exact ⟨hx, by simp [hdir]⟩
        have hcount1 : (childrenOf cats root).count x = 1 := by
          have hle := List.nodup_iff_count_le_one.mp hchild_nodup x
          have hpos : 0 < (childrenOf cats root).count x :=
            List.count_pos_iff.mpr hxchild
          omega
        have hzero : ((childrenOf cats root).map
            (fun q => (get_children (childrenOf cats) fuel (some q.pk)).count x)).sum
            = 0 := by
          apply sum_map_zero
          intro q hq
          obtain ⟨hqc, hqpar⟩ := hchild_mem q hq
          apply (ih (some q.pk) (hcard' q hq) x).2
          rintro ⟨-, hdq⟩
          exact no_desc_of_child hrank hx hqc hdir hqpar hdq
        rw [hsum, hzero, hcount1]
      · have hq0child : q0 ∈ childrenOf cats root := by
          rw [childrenOf, List.mem_filter]
          exact ⟨hq0, by simp [hq0par]⟩
        have hcount0 : (childrenOf cats root).count x = 0 := by
          rw [List.count_eq_zero]
          intro hxc
          obtain ⟨hxcats, hxpar⟩ := hchild_mem x hxc
          exact no_desc_of_child hrank hxcats hq0 hxpar hq0par hq0d
        have hsum1 : ((childrenOf cats root).map
            (fun q => (get_children (childrenOf cats) fuel (some q.pk)).count x)).sum
            = 1 := by
          apply sum_map_single _ hchild_nodup _ q0 hq0child
          · exact (ih (some q0.pk) (hcard' q0 hq0child) x).1 ⟨hx, hq0d⟩
          · intro q hq hne
            obtain ⟨hqc, hqpar⟩ := hchild_mem q hq
            apply (ih (some q.pk) (hcard' q hq) x).2
            rintro ⟨-, hdq⟩
            exact hne (desc_branch_unique hnd hrank hqc hq0 hqpar hq0par hdq hq0d)
        rw [hsum, hsum1, hcount0]
    · intro hnot
      have hc0 : (childrenOf cats root).count x = 0 := by
        rw [List.count_eq_zero]
        intro hxc
        obtain ⟨hxcats, hxpar⟩ := hchild_mem x hxc
        exact hnot ⟨hxcats, Desc.base hxcats hxpar⟩
      have hz : ((childrenOf cats root).map
          (fun q => (get_children (childrenOf cats) fuel (some q.pk)).count x)).sum
          = 0 := by
        apply sum_map_zero
        intro q hq
        obtain ⟨hqc, hqpar⟩ := hchild_mem q hq
        apply (ih (some q.pk) (hcard' q hq) x).2
        rintro ⟨hxcats, hdq⟩
        exact hnot ⟨hxcats, Desc.extend hqc hqpar hdq⟩
      rw [hsum, hz, hc0]

/-- In a forest every stored category lies below the virtual `None`
root. -/
theorem desc_none_of_mem {cats : List Category} {rank : Int → Nat}
    (hpres : ∀ c ∈ cats, ∀ p : Int, c.parent = some p → ∃ q ∈ cats, q.pk = p)
    (hrank : ∀ c ∈ cats, ∀ p : Int, c.parent = some p → rank p < rank c.pk) :
    ∀ x ∈ cats, Desc cats none x := by
  have key : ∀ n : Nat, ∀ x ∈ cats, rank x.pk < n → Desc cats none x := by
    intro n
    induction n with
    | zero => intro x _ h; omega
    | succ n ihn =>
      intro x hx hlt
      cases hxpar : x.parent with
      | none => exact Desc.base hx hxpar
      | some p =>
        obtain ⟨q, hq, hqpk⟩ := hpres x hx p hxpar
        have hrq : rank q.pk < n := by
          have := hrank x hx p hxpar
          rw [hqpk]
          omega
        have hdq := ihn q hq hrq
        exact Desc.step hx hq (by rw [hxpar, hqpk]) hdq
  intro x hx
  exact key (rank x.pk + 1) x hx (by omega)

/-- Every element of the DFS output other than a direct child of `root`
is preceded by its parent. -/
theorem parents_before_bind (cats : List Category) (fuel : Nat)
    (root : Option Int) :
    ∀ l : List Category, (∀ q ∈ l, q.parent = root) →
      (∀ q ∈ l, ∀ (l1 : List Category) (c : Category) (l2 : List Category),
        get_children (childrenOf cats) fuel (some q.pk) = l1 ++ c :: l2 →
        c.parent = some q.pk ∨ ∃ q' ∈ l1, some q'.pk = c.parent) →
      ∀ (l1 : List Category) (c : Category) (l2 : List Category),
        l.bind (fun q => q :: get_children (childrenOf cats) fuel (some q.pk)) =
          l1 ++ c :: l2 →
        c.parent = root ∨ ∃ q ∈ l1, some q.pk = c.parent := by
  intro l
  induction l with
  | nil =>
    intro _ _ l1 c l2 h
    exact absurd (show l1 ++ c :: l2 = [] from h.symm)
      (List.append_ne_nil_of_right_ne_nil _ (by simp))
  | cons q l' ih =>
    intro hpar hsub l1 c l2 h
    replace h : q :: (get_children (childrenOf cats) fuel (some q.pk) ++
        l'.bind (fun q => q :: get_children (childrenOf cats) fuel (some q.pk))) =
        l1 ++ c :: l2 := h
    cases l1 with
    | nil =>
      simp only [List.nil_append] at h
      have hc : c = q := (List.head_eq_of_cons_eq h).symm
      rw [hc]
      exact Or.inl (hpar q (by simp))
    | cons a l1' =>
      rw [List.cons_append] at h
      have ha : q = a := List.head_eq_of_cons_eq h
      have htl : get_children (childrenOf cats) fuel (some q.pk) ++
          l'.bind (fun q => q :: get_children (childrenOf cats) fuel (some q.pk)) =
          l1' ++ c :: l2 := List.tail_eq_of_cons_eq h
      rcases List.append_eq_append_iff.mp htl with ⟨a', ha1, ha2⟩ | ⟨c', hc1, hc2⟩
      · -- c lies in the continuation after q's subtree
        have := ih (fun x hx => hpar x (by simp [hx]))
          (fun x hx => hsub x (by simp [hx])) a' c l2 ha2
        rcases this with hroot | ⟨q', hq', hq'eq⟩
        · exact Or.inl hroot
        · refine Or.inr ⟨q', ?_, hq'eq⟩
          rw [ha1]
          simp [hq']
      · cases c' with
        | nil =>
          rw [List.nil_append] at hc2
          have := ih (fun x hx => hpar x (by simp [hx]))
            (fun x hx => hsub x (by simp [hx])) [] c l2 hc2.symm
          rcases this with hroot | ⟨q', hq', _⟩
          · exact Or.inl hroot
          · simp at hq'
        | cons e c'' =>
          have hce : c = e := List.head_eq_of_cons_eq hc2
          rw [← hce] at hc1
          have := hsub q (by simp) l1' c c'' hc1
          rcases this with hq_par | ⟨q', hq', hq'eq⟩
          · refine Or.inr ⟨q, by simp [ha], ?_⟩
            rw [hq_par]
          · exact Or.inr ⟨q', by simp [hq'], hq'eq⟩

theorem get_children_parents_before (cats : List Category) :
    ∀ (fuel : Nat) (root : Option Int) (l1 : List Category) (c : Category)
      (l2 : List Category),
      get_children (childrenOf cats) fuel root = l1 ++ c :: l2 →
      c.parent = root ∨ ∃ q ∈ l1, some q.pk = c.parent := by
  intro fuel
  induction fuel with
  | zero =>
    intro root l1 c l2 h
    exact absurd (show l1 ++ c :: l2 = [] from h.symm)
      (List.append_ne_nil_of_right_ne_nil _ (by simp))
  | succ fuel ih =>
    intro root l1 c l2 h
    simp only [get_children] at h
    exact parents_before_bind cats fuel root (childrenOf cats root)
      (fun q hq => by simpa using (List.mem_filter.mp hq).2)
      (fun q _ => ih (some q.pk)) l1 c l2 h

/-- C3: for a forest of stored categories, `get_all_categories_sorted`
yields each stored category exactly once (a permutation of the store),
and in the depth-first pre-order every yielded category with a non-null
parent is preceded by its parent. -/
theorem get_all_categories_sorted_spec (cats : List Category)
    (hF : Forest cats) :
    (get_all_categories_sorted cats).Perm cats ∧
      ∀ (l1 : List Category) (c : Category) (l2 : List Category) (p : Int),
        get_all_categories_sorted cats = l1 ++ c :: l2 → c.parent = some p →
        ∃ q ∈ l1, q.pk = p := by
  obtain ⟨hnd, hpres, rank, hrank⟩ := hF
  constructor
  · rw [List.perm_iff_count]
    intro x
    have hfuel : Set.ncard {c | c ∈ cats ∧ Desc cats none c} < cats.length + 1 := by
      have := ncard_mem_le cats (Desc cats none)
      omega
    have hcnt := get_children_count hnd hrank (cats.length + 1) none hfuel x
    unfold get_all_categories_sorted
    by_cases hx : x ∈ cats
    · rw [hcnt.1 ⟨hx, desc_none_of_mem hpres hrank x hx⟩]
      have h1 := List.nodup_iff_count_le_one.mp hnd.of_map x
      have h2 := List.count_pos_iff.mpr hx
      omega
    · rw [hcnt.2 (fun hc => hx hc.1), List.count_eq_zero_of_not_mem hx]
  · intro l1 c l2 p hdec hpar
    have hpb := get_children_parents_before cats (cats.length + 1) none l1 c l2 hdec
    rcases hpb with hnone | ⟨q, hq, hqeq⟩
    · rw [hpar] at hnone
      exact absurd hnone (by simp)
    · refine ⟨q, hq, ?_⟩
      rw [hpar] at hqeq
      exact Option.some_injective _ hqeq

/-- Witness for C3: the spec's scenario forest `food / meat, books`
(with `meat` a child of `food`). -/
theorem get_all_categories_sorted_spec_witness :
    Forest [⟨"food", none, 1⟩, ⟨"meat", some 1, 2⟩, ⟨"books", none, 3⟩] ∧
      (get_all_categories_sorted
          [⟨"food", none, 1⟩, ⟨"meat", some 1, 2⟩, ⟨"books", none, 3⟩]).Perm
        [⟨"food", none, 1⟩, ⟨"meat", some 1, 2⟩, ⟨"books", none, 3⟩] := by
  have hF : Forest [⟨"food", none, 1⟩, ⟨"meat", some 1, 2⟩, ⟨"books", none, 3⟩] := by
    refine ⟨by decide, ?_, ⟨fun p => p.toNat, ?_⟩⟩
    · rintro c hc p hp
      fin_cases hc
      · exact absurd hp (by simp)
      · refine ⟨⟨"food", none, 1⟩, by simp, ?_⟩
        have : p = 1 := by
          simp at hp
          omega
        simp [this]
      · exact absurd hp (by simp)
    · rintro c hc p hp
      fin_cases hc
      · exact absurd hp (by simp)
      · have : p = 1 := by
          simp at hp
          omega
        subst this
        decide
      · exact absurd hp (by simp)
  exact ⟨hF, (get_all_categories_sorted_spec _ hF).1⟩

/-! ## Cascading category deletion (`BookKeeper._cb_delete_category`) -/

/-- The store state the presenter operates on: the three repositories. -/
structure AppState where
  cats : List Category
  exps : List Expense
  buds : List Budget
deriving Repr

/-- Python `x in to_delete` for `x : int | None` against a list of ints
(`None in [...]` is `False` for integer lists). -/
def optMem (x : Option Int) (l : List Int) : Bool :=
  match x with
  | none => false
  | some v => decide (v ∈ l)

/-- A sequence of `repo.delete(pk)` calls over nodup, present pks removes
exactly the rows with those pks. -/
theorem foldl_delete_opt {α : Type} (pkf : α → Int) :
    ∀ (td : List Int) (cur : List α), td.Nodup →
      (∀ p ∈ td, ∃ c ∈ cur, pkf c = p) →
      td.foldl (fun acc p => acc.bind (fun cs =>
        if cs.countP (fun x => pkf x = p) = 0 then none
        else some (cs.filter (fun x => ¬(pkf x = p))))) (some cur)
      = some (cur.filter (fun x => decide (pkf x ∉ td))) := by
  intro td
  induction td with
  | nil =>
    intro cur _ _
    simp
  | cons p td' ih =>
    intro cur hnd hpres
    obtain ⟨c0, hc0, hc0pk⟩ := hpres p (by simp)
    have hcnt : cur.countP (fun x => pkf x = p) ≠ 0 := by
      intro hc
      rw [List.countP_eq_zero] at hc
      exact absurd hc0pk (by simpa using hc c0 hc0)
    simp only [List.foldl_cons]
    have hstep : ((some cur).bind (fun cs =>
        if cs.countP (fun x => pkf x = p) = 0 then none
        else some (cs.filter (fun x => ¬(pkf x = p))))) =
        some (cur.filter (fun x => ¬(pkf x = p))) := by
      show (if cur.countP (fun x => pkf x = p) = 0 then none
        else some (cur.filter (fun x => ¬(pkf x = p)))) = _
      rw [if_neg hcnt]
    rw [hstep]
    have hnd' := (List.nodup_cons.mp hnd).2
    have hnp := (List.nodup_cons.mp hnd).1
    have hpres' : ∀ p' ∈ td', ∃ c ∈ cur.filter (fun x => ¬(pkf x = p)),
        pkf c = p' := by
      intro p' hp'
      obtain ⟨c, hc, hcpk⟩ := hpres p' (by simp [hp'])
      refine ⟨c, ?_, hcpk⟩
      rw [List.mem_filter]
      refine ⟨hc, ?_⟩
      have hne : pkf c ≠ p := by
        rw [hcpk]
        intro hcontra
        rw [hcontra] at hp'
        exact hnp hp'
      simp [hne]
    rw [ih (cur.filter (fun x => ¬(pkf x = p))) hnd' hpres']
    congr 1
    rw [List.filter_filter]
    apply List.filter_congr
    intro x _
    by_cases h1 : pkf x = p <;> by_cases h2 : pkf x ∈ td' <;>
      simp [h1, h2]

/-- Iterating `update` over a snapshot of the store (re-linking the rows
selected by `cond`) is the pointwise map over the store, provided pks are
unique and every snapshot record matches its stored row. -/
theorem foldl_update_opt {α : Type} [DecidableEq α] (pkf : α → Int)
    (f : α → α) (cond : α → Bool) (hpk : ∀ e, pkf (f e) = pkf e) :
    ∀ (todo cur : List α), (todo.map pkf).Nodup →
      (∀ e ∈ todo, ∀ x ∈ cur, pkf x = pkf e → x = e) →
      (∀ e ∈ todo, ∃ x ∈ cur, pkf x = pkf e) →
      todo.foldl (fun acc e => acc.bind (fun cs =>
        if cond e then
          (if cs.countP (fun x => pkf x = pkf e) = 0 then none
           else some (cs.map (fun x => if pkf x = pkf e then f e else x)))
        else some cs)) (some cur)
      = some (cur.map (fun x =>
          if 0 < todo.countP (fun e => pkf e = pkf x) ∧ cond x then f x else x)) := by
  intro todo
  induction todo with
  | nil =>
    intro cur _ _ _
    simp
  | cons e todo' ih =>
    intro cur hnd hmatch hpres
    obtain ⟨x0, hx0, hx0pk⟩ := hpres e (by simp)
    have hcnt : cur.countP (fun x => pkf x = pkf e) ≠ 0 := by
      intro hc
      rw [List.countP_eq_zero] at hc
      exact absurd hx0pk (by simpa using hc x0 hx0)
    have hnd' : (todo'.map pkf).Nodup := by
      rw [List.map_cons] at hnd
      exact (List.nodup_cons.mp hnd).2
    have hnpk : pkf e ∉ todo'.map pkf := by
      rw [List.map_cons] at hnd
      exact (List.nodup_cons.mp hnd).1
    simp only [List.foldl_cons]
    by_cases hcond : cond e = true
    · have hstep : ((some cur).bind (fun cs =>
          if cond e then
            (if cs.countP (fun x => pkf x = pkf e) = 0 then none
             else some (cs.map (fun x => if pkf x = pkf e then f e else x)))
          else some cs)) =
          some (cur.map (fun x => if pkf x = pkf e then f e else x)) := by
        show (if cond e then
            (if cur.countP (fun x => pkf x = pkf e) = 0 then none
             else some (cur.map (fun x => if pkf x = pkf e then f e else x)))
          else some cur) = _
        rw [if_pos hcond, if_neg hcnt]
      rw [hstep]
      have hmatch' : ∀ e' ∈ todo',
          ∀ x ∈ cur.map (fun x => if pkf x = pkf e then f e else x),
          pkf x = pkf e' → x = e' := by
        intro e' he' x hx hxe'
        obtain ⟨y, hy, hyx⟩ := List.mem_map.mp hx
        by_cases hye : pkf y = pkf e
        · rw [if_pos hye] at hyx
          subst hyx
          exact absurd (List.mem_map.mpr ⟨e', he', by rw [← hxe', hpk]⟩) hnpk
        · rw [if_neg hye] at hyx
          subst hyx
          exact hmatch e' (by simp [he']) y hy hxe'
      have hpres' : ∀ e' ∈ todo',
          ∃ x ∈ cur.map (fun x => if pkf x = pkf e then f e else x),
          pkf x = pkf e' := by
        intro e' he'
        obtain ⟨y, hy, hye'⟩ := hpres e' (by simp [he'])
        have hyne : ¬ pkf y = pkf e := by
          intro h
          exact hnpk (List.mem_map.mpr ⟨e', he', by rw [← hye', h]⟩)
        exact ⟨y, List.mem_map.mpr ⟨y, hy, by rw [if_neg hyne]⟩, hye'⟩
      rw [ih (cur.map (fun x => if pkf x = pkf e then f e else x))
        hnd' hmatch' hpres']
      congr 1
      rw [List.map_map]
      apply List.map_congr_left
      intro y hy
      dsimp only [Function.comp]
      by_cases hye : pkf y = pkf e
      · have hyeq : y = e := hmatch e (by simp) y hy hye
        rw [if_pos hye]
        have hcnt0 : todo'.countP (fun e' => pkf e' = pkf (f e)) = 0 := by
          rw [List.countP_eq_zero]
          intro e' he' hc
          simp only [decide_eq_true_eq] at hc
          exact hnpk (List.mem_map.mpr ⟨e', he', by rw [hc]; exact hpk e⟩)
        rw [if_neg (by rw [hcnt0]; simp)]
        rw [hyeq]
        rw [if_pos ⟨List.countP_pos.mpr ⟨e, by simp, by simp⟩, hcond⟩]
      · rw [if_neg hye]
        have hcc : (e :: todo').countP (fun e' => pkf e' = pkf y) =
            todo'.countP (fun e' => pkf e' = pkf y) := by
          rw [List.countP_cons]
          simp [show ¬(pkf e = pkf y) from fun h => hye h.symm]
        rw [hcc]
    · have hstep : ((some cur).bind (fun cs =>
          if cond e then
            (if cs.countP (fun x => pkf x = pkf e) = 0 then none
             else some (cs.map (fun x => if pkf x = pkf e then f e else x)))
          else some cs)) = some cur := by
        show (if cond e then
            (if cur.countP (fun x => pkf x = pkf e) = 0 then none
             else some (cur.map (fun x => if pkf x = pkf e then f e else x)))
          else some cur) = _
        rw [if_neg hcond]
      rw [hstep]
      rw [ih cur hnd' (fun e' he' => hmatch e' (by simp [he']))
        (fun e' he' => hpres e' (by simp [he']))]
      congr 1
      apply List.map_congr_left
      intro y hy
      dsimp only
      by_cases hye : pkf e = pkf y
      · have hyeq : y = e := hmatch e (by simp) y hy hye.symm
        have hcy : ¬ cond y = true := by rw [hyeq]; exact hcond
        rw [if_neg (fun h => hcy h.2), if_neg (fun h => hcy h.2)]
      · have hcc : (e :: todo').countP (fun e' => pkf e' = pkf y) =
            todo'.countP (fun e' => pkf e' = pkf y) := by
          rw [List.countP_cons]
          simp [hye]
        rw [hcc]

/-- The special case actually run by the presenter: the snapshot handed to
the loop is the store itself (`get_all()`), so with unique pks the loop is
the pointwise conditional rewrite. -/
theorem foldl_update_self {α : Type} [DecidableEq α] (pkf : α → Int)
    (f : α → α) (cond : α → Bool) (hpk : ∀ e, pkf (f e) = pkf e)
    (cur : List α) (hnd : (cur.map pkf).Nodup) :
    cur.foldl (fun acc e => acc.bind (fun cs =>
      if cond e then
        (if cs.countP (fun x => pkf x = pkf e) = 0 then none
         else some (cs.map (fun x => if pkf x = pkf e then f e else x)))
      else some cs)) (some cur)
    = some (cur.map (fun x => if cond x then f x else x)) := by
  rw [foldl_update_opt pkf f cond hpk cur cur hnd
    (fun e he x hx hxe => List.inj_on_of_nodup_map hnd hx he hxe)
    (fun e he => ⟨e, he, rfl⟩)]
  congr 1
  apply List.map_congr_left
  intro y hy
  dsimp only
  have hpos : 0 < cur.countP (fun e => pkf e = pkf y) :=
    List.countP_pos.mpr ⟨y, hy, by simp⟩
  by_cases hc : cond y = true
  · rw [if_pos ⟨hpos, hc⟩, if_pos hc]
  · rw [if_neg (fun h => hc h.2), if_neg hc]

/-- Splitting a list by a Boolean predicate preserves the total length. -/
theorem length_filter_split {α : Type} (p : α → Bool) (l : List α) :
    (l.filter p).length + (l.filter (fun a => !(p a))).length = l.length := by
  induction l with
  | nil => simp
  | cons a l ih =>
    by_cases h : p a = true <;> simp [List.filter_cons, h] <;> omega

/-- The list `to_delete` built by `BookKeeper._cb_delete_category`: the pks
of the transitive subcategories of `cat`, then `cat.pk` itself. -/
def to_delete (cat : Category) (cats : List Category) : List Int :=
  (get_subcategories cat cats).map Category.pk ++ [cat.pk]

/-- `BookKeeper._cb_delete_category` acting on the three repositories:
delete every category in `to_delete`, then re-link the expenses whose
category is in `to_delete` to `cat.parent` (updating them in the store),
then the budgets likewise. A raising repository call is modelled as
`none`. -/
def cb_delete_category (st : AppState) (cat : Category) : Option AppState :=
  match
    (to_delete cat st.cats).foldl (fun acc p => acc.bind (fun cs =>
      if cs.countP (fun c => c.pk = p) = 0 then none
      else some (cs.filter (fun c => ¬(c.pk = p))))) (some st.cats),
    st.exps.foldl (fun acc e => acc.bind (fun cs =>
      if optMem e.category (to_delete cat st.cats) then
        (if cs.countP (fun x => x.pk = e.pk) = 0 then none
         else some (cs.map (fun x =>
           if x.pk = e.pk then { e with category := cat.parent } else x)))
      else some cs)) (some st.exps),
    st.buds.foldl (fun acc b => acc.bind (fun cs =>
      if optMem b.category (to_delete cat st.cats) then
        (if cs.countP (fun x => x.pk = b.pk) = 0 then none
         else some (cs.map (fun x =>
           if x.pk = b.pk then { b with category := cat.parent } else x)))
      else some cs)) (some st.buds)
  with
  | some c, some e, some b => some ⟨c, e, b⟩
  | _, _, _ => none

/-- `get_subcategories cat` returns exactly the members of the store lying
strictly below `cat`, without duplicates. -/
theorem get_subcategories_char {cats : List Category} {rank : Int → Nat}
    (hnd : (cats.map Category.pk).Nodup)
    (hrank : ∀ c ∈ cats, ∀ p : Int, c.parent = some p → rank p < rank c.pk)
    (cat : Category) :
    (∀ x, x ∈ get_subcategories cat cats ↔
      x ∈ cats ∧ Desc cats (some cat.pk) x) ∧
    (get_subcategories cat cats).Nodup := by
  have hfuel : Set.ncard {c | c ∈ cats ∧ Desc cats (some cat.pk) c} <
      cats.length + 1 := by
    have := ncard_mem_le cats (Desc cats (some cat.pk))
    omega
  have hcnt : ∀ x, (x ∈ cats ∧ Desc cats (some cat.pk) x →
      (get_subcategories cat cats).count x = 1) ∧
      (¬(x ∈ cats ∧ Desc cats (some cat.pk) x) →
      (get_subcategories cat cats).count x = 0) :=
    get_children_count hnd hrank (cats.length + 1) (some cat.pk) hfuel
  constructor
  · intro x
    constructor
    · intro hx
      by_contra hcon
      have h0 := (hcnt x).2 hcon
      rw [List.count_eq_zero] at h0
      exact h0 hx
    · intro hx
      have h1 := (hcnt x).1 hx
      exact List.count_pos_iff.mp (by omega)
  · rw [List.nodup_iff_count_le_one]
    intro x
    by_cases hx : x ∈ cats ∧ Desc cats (some cat.pk) x
    · rw [(hcnt x).1 hx]
    · rw [(hcnt x).2 hx]
      omega

/-- C1: deleting category `cat` (with its `N` transitive descendants)
succeeds and removes exactly `cat` and its descendants — `N + 1` records —
from the category store; every expense and budget whose category was one
of the deleted pks is rewritten to `cat.parent` and persisted, all others
are untouched; afterwards no expense or budget references a deleted pk. -/
theorem cb_delete_category_spec (st : AppState) (cat : Category)
    (hF : Forest st.cats) (hcat : cat ∈ st.cats)
    (hexnd : (st.exps.map Expense.pk).Nodup)
    (hbdnd : (st.buds.map Budget.pk).Nodup) :
    ∃ st' : AppState, cb_delete_category st cat = some st' ∧
      (∀ c : Category, c ∈ st'.cats ↔
        c ∈ st.cats ∧ c ≠ cat ∧ ¬ Desc st.cats (some cat.pk) c) ∧
      st'.cats.length + ((get_subcategories cat st.cats).length + 1) =
        st.cats.length ∧
      st'.exps = st.exps.map (fun e =>
        if optMem e.category (to_delete cat st.cats) then
          { e with category := cat.parent } else e) ∧
      st'.buds = st.buds.map (fun b =>
        if optMem b.category (to_delete cat st.cats) then
          { b with category := cat.parent } else b) ∧
      (∀ e ∈ st'.exps, ∀ p : Int, e.category = some p →
        p ∉ to_delete cat st.cats) ∧
      (∀ b ∈ st'.buds, ∀ p : Int, b.category = some p →
        p ∉ to_delete cat st.cats) := by
  obtain ⟨hnd, hpres, rank, hrank⟩ := hF
  have hchar := get_subcategories_char hnd hrank cat
  have hsub_mem := hchar.1
  have hsub_nodup := hchar.2
  have hsub_sub : ∀ x ∈ get_subcategories cat st.cats, x ∈ st.cats :=
    fun x hx => ((hsub_mem x).1 hx).1
  have hsub_desc : ∀ x ∈ get_subcategories cat st.cats,
      Desc st.cats (some cat.pk) x := fun x hx => ((hsub_mem x).1 hx).2
  have hinj := pk_inj hnd
  have hcat_not_sub : cat ∉ get_subcategories cat st.cats := by
    intro h
    exact absurd (Desc.rank_lt hrank (hsub_desc cat h)) (lt_irrefl _)
  have htd_nodup : (to_delete cat st.cats).Nodup := by
    rw [to_delete, List.nodup_append]
    refine ⟨?_, by simp, ?_⟩
    · exact List.Nodup.map_on
        (fun x hx y hy hxy => hinj x (hsub_sub x hx) y (hsub_sub y hy) hxy)
        hsub_nodup
    · intro a ha hae
      rw [List.mem_singleton] at hae
      subst hae
      obtain ⟨x, hx, hxpk⟩ := List.mem_map.mp ha
      have hxc : x = cat := hinj x (hsub_sub x hx) cat hcat hxpk
      exact hcat_not_sub (hxc ▸ hx)
  have htd_char : ∀ c ∈ st.cats, (c.pk ∈ to_delete cat st.cats ↔
      (c = cat ∨ Desc st.cats (some cat.pk) c)) := by
    intro c hc
    simp only [to_delete]
    constructor
    · intro h
      rcases List.mem_append.mp h with h1 | h2
      · obtain ⟨x, hx, hxpk⟩ := List.mem_map.mp h1
        right
        have hxc : x = c := hinj x (hsub_sub x hx) c hc hxpk
        exact hxc ▸ hsub_desc x hx
      · left
        exact hinj c hc cat hcat (List.mem_singleton.mp h2)
    · rintro (rfl | hd)
      · exact List.mem_append.mpr (Or.inr (by simp))
      · exact List.mem_append.mpr
          (Or.inl (List.mem_map.mpr ⟨c, (hsub_mem c).2 ⟨hc, hd⟩, rfl⟩))
  have htd_pres : ∀ p ∈ to_delete cat st.cats, ∃ c ∈ st.cats, c.pk = p := by
    intro p hp
    simp only [to_delete, List.mem_append, List.mem_map,
      List.mem_singleton] at hp
    rcases hp with ⟨x, hx, rfl⟩ | rfl
    · exact ⟨x, hsub_sub x hx, rfl⟩
    · exact ⟨cat, hcat, rfl⟩
  have hparent_safe : ∀ pp : Int, cat.parent = some pp →
      pp ∉ to_delete cat st.cats := by
    intro pp hpp hmem
    obtain ⟨c, hc, hcpk⟩ := htd_pres pp hmem
    have h2 : rank pp < rank cat.pk := hrank cat hcat pp hpp
    rcases (htd_char c hc).1 (by rw [hcpk]; exact hmem) with hceq | hd
    · rw [hceq] at hcpk
      rw [hcpk] at h2
      exact absurd h2 (lt_irrefl _)
    · have h1 : rank cat.pk < rank c.pk := Desc.rank_lt hrank hd
      rw [hcpk] at h1
      omega
  have hcats' : (to_delete cat st.cats).foldl (fun acc p => acc.bind (fun cs =>
      if cs.countP (fun c => c.pk = p) = 0 then none
      else some (cs.filter (fun c => ¬(c.pk = p))))) (some st.cats)
      = some (st.cats.filter
          (fun c => decide (c.pk ∉ to_delete cat st.cats))) :=
    foldl_delete_opt Category.pk (to_delete cat st.cats) st.cats
      htd_nodup htd_pres
  have hexps' : st.exps.foldl (fun acc e => acc.bind (fun cs =>
      if optMem e.category (to_delete cat st.cats) then
        (if cs.countP (fun x => x.pk = e.pk) = 0 then none
         else some (cs.map (fun x =>
           if x.pk = e.pk then { e with category := cat.parent } else x)))
      else some cs)) (some st.exps)
      = some (st.exps.map (fun e =>
          if optMem e.category (to_delete cat st.cats) then
            { e with category := cat.parent } else e)) :=
    foldl_update_self Expense.pk (fun e => { e with category := cat.parent })
      (fun e => optMem e.category (to_delete cat st.cats)) (fun e => rfl)
      st.exps hexnd
  have hbuds' : st.buds.foldl (fun acc b => acc.bind (fun cs =>
      if optMem b.category (to_delete cat st.cats) then
        (if cs.countP (fun x => x.pk = b.pk) = 0 then none
         else some (cs.map (fun x =>
           if x.pk = b.pk then { b with category := cat.parent } else x)))
      else some cs)) (some st.buds)
      = some (st.buds.map (fun b =>
          if optMem b.category (to_delete cat st.cats) then
            { b with category := cat.parent } else b)) :=
    foldl_update_self Budget.pk (fun b => { b with category := cat.parent })
      (fun b => optMem b.category (to_delete cat st.cats)) (fun b => rfl)
      st.buds hbdnd
  refine ⟨⟨st.cats.filter (fun c => decide (c.pk ∉ to_delete cat st.cats)),
    st.exps.map (fun e => if optMem e.category (to_delete cat st.cats) then
      { e with category := cat.parent } else e),
    st.buds.map (fun b => if optMem b.category (to_delete cat st.cats) then
      { b with category := cat.parent } else b)⟩, ?_, ?_, ?_, rfl, rfl, ?_, ?_⟩
  · unfold cb_delete_category
    rw [hcats', hexps', hbuds']
  · intro c
    dsimp only
    rw [List.mem_filter]
    constructor
    · rintro ⟨hcc, hdec⟩
      rw [decide_eq_true_eq] at hdec
      refine ⟨hcc, ?_, ?_⟩
      · intro hceq
        exact hdec ((htd_char c hcc).2 (Or.inl hceq))
      · intro hd
        exact hdec ((htd_char c hcc).2 (Or.inr hd))
    · rintro ⟨hcc, hne, hnd2⟩
      refine ⟨hcc, ?_⟩
      rw [decide_eq_true_eq]
      intro hmem
      rcases (htd_char c hcc).1 hmem with hceq | hd
      · exact hne hceq
      · exact hnd2 hd
  · dsimp only
    have hperm : (st.cats.filter
        (fun c => decide (c.pk ∈ to_delete cat st.cats))).Perm
        (cat :: get_subcategories cat st.cats) := by
      rw [List.perm_iff_count]
      intro x
      have hfn : (st.cats.filter
          (fun c => decide (c.pk ∈ to_delete cat st.cats))).Nodup :=
        (hnd.of_map).filter _
      have hcn : (cat :: get_subcategories cat st.cats).Nodup :=
        List.nodup_cons.mpr ⟨hcat_not_sub, hsub_nodup⟩
      have hmem_iff : ∀ z, z ∈ st.cats.filter
          (fun c => decide (c.pk ∈ to_delete cat st.cats)) ↔
          z ∈ cat :: get_subcategories cat st.cats := by
        intro z
        rw [List.mem_filter, List.mem_cons, decide_eq_true_eq]
        constructor
        · rintro ⟨hz, hzm⟩
          rcases (htd_char z hz).1 hzm with hzeq | hd
          · exact Or.inl hzeq
          · exact Or.inr ((hsub_mem z).2 ⟨hz, hd⟩)
        · rintro (hzeq | hzs)
          · subst hzeq
            exact ⟨hcat, (htd_char z hcat).2 (Or.inl rfl)⟩
          · exact ⟨hsub_sub z hzs,
              (htd_char z (hsub_sub z hzs)).2 (Or.inr (hsub_desc z hzs))⟩
      by_cases hx : x ∈ st.cats.filter
          (fun c => decide (c.pk ∈ to_delete cat st.cats))
      · rw [List.count_eq_one_of_mem hfn hx,
          List.count_eq_one_of_mem hcn ((hmem_iff x).1 hx)]
      · rw [List.count_eq_zero_of_not_mem hx,
          List.count_eq_zero_of_not_mem (fun h => hx ((hmem_iff x).2 h))]
    have hlen1 : (st.cats.filter
        (fun c => decide (c.pk ∈ to_delete cat st.cats))).length =
        (get_subcategories cat st.cats).length + 1 := by
      rw [hperm.length_eq]
      rfl
    have hsplit := length_filter_split
      (fun c => decide (c.pk ∈ to_delete cat st.cats)) st.cats
    have halign : (st.cats.filter
        (fun a => !(decide (a.pk ∈ to_delete cat st.cats)))) =
        st.cats.filter (fun c => decide (c.pk ∉ to_delete cat st.cats)) := by
      apply List.filter_congr
      intro x _
      simp [decide_not]
    rw [halign] at hsplit
    omega
  · intro e he p hep hmem
    dsimp only at he
    obtain ⟨x, hx, hxe⟩ := List.mem_map.mp he
    by_cases hm : optMem x.category (to_delete cat st.cats) = true
    · rw [if_pos hm] at hxe
      subst hxe
      exact hparent_safe p hep hmem
    · rw [if_neg hm] at hxe
      subst hxe
      rw [hep] at hm
      simp only [optMem, decide_eq_true_eq] at hm
      exact hm hmem
  · intro b hb p hbp hmem
    dsimp only at hb
    obtain ⟨x, hx, hxb⟩ := List.mem_map.mp hb
    by_cases hm : optMem x.category (to_delete cat st.cats) = true
    · rw [if_pos hm] at hxb
      subst hxb
      exact hparent_safe p hbp hmem
    · rw [if_neg hm] at hxb
      subst hxb
      rw [hbp] at hm
      simp only [optMem, decide_eq_true_eq] at hm
      exact hm hmem

/-- A concrete store for exercising the cascade: categories
`food (pk 1) ⊃ meat (pk 2)` and `books (pk 3)`; an expense on `meat`,
an expense on `books`; a budget on `food`. -/
def stW : AppState :=
  ⟨[⟨"food", none, 1⟩, ⟨"meat", some 1, 2⟩, ⟨"books", none, 3⟩],
   [⟨500, some 2, mkDate 2024 12 5, mkDate 2024 12 5, "", 1⟩,
    ⟨300, some 3, mkDate 2024 12 6, mkDate 2024 12 6, "", 2⟩],
   [⟨1000, mkDate 2024 12 1, mkDate 2025 1 1, "Monthly", some 1, 1⟩]⟩

/-- The category deleted in the witness scenario: top-level `food`. -/
def catW : Category := ⟨"food", none, 1⟩

/-- Witness for C1: deleting `food` from the concrete store removes
`food` and `meat` and re-links the expense on `meat` and the budget on
`food` to the null parent. -/
theorem cb_delete_category_spec_witness :
    (Forest stW.cats ∧ catW ∈ stW.cats ∧
      (stW.exps.map Expense.pk).Nodup ∧ (stW.buds.map Budget.pk).Nodup) ∧
    (∃ st' : AppState, cb_delete_category stW catW = some st' ∧
      (∀ c : Category, c ∈ st'.cats ↔
        c ∈ stW.cats ∧ c ≠ catW ∧ ¬ Desc stW.cats (some catW.pk) c) ∧
      st'.cats.length + ((get_subcategories catW stW.cats).length + 1) =
        stW.cats.length ∧
      st'.exps = stW.exps.map (fun e =>
        if optMem e.category (to_delete catW stW.cats) then
          { e with category := catW.parent } else e) ∧
      st'.buds = stW.buds.map (fun b =>
        if optMem b.category (to_delete catW stW.cats) then
          { b with category := catW.parent } else b) ∧
      (∀ e ∈ st'.exps, ∀ p : Int, e.category = some p →
        p ∉ to_delete catW stW.cats) ∧
      (∀ b ∈ st'.buds, ∀ p : Int, b.category = some p →
        p ∉ to_delete catW stW.cats)) := by
  have hF : Forest stW.cats := by
    refine ⟨by decide, ?_, ⟨fun p => p.toNat, ?_⟩⟩
    · intro c hc p hp
      simp only [stW] at hc
      fin_cases hc
      · exact absurd hp (by simp)
      · refine ⟨⟨"food", none, 1⟩, by decide, ?_⟩
        have hp1 : p = 1 := by
          simp at hp
          omega
        simp [hp1]
      · exact absurd hp (by simp)
    · intro c hc p hp
      simp only [stW] at hc
      fin_cases hc
      · exact absurd hp (by simp)
      · have hp1 : p = 1 := by
          simp at hp
          omega
        subst hp1
        decide
      · exact absurd hp (by simp)
  refine ⟨⟨hF, by decide, by decide, by decide⟩, ?_⟩
  exact cb_delete_category_spec stW catW hF (by decide) (by decide) (by decide)

end Bookkeeper
